import Mathlib

/-!
# V-Stack: shallow embedding and verification of the core components

This file embeds, in Lean 4, the parts of the V-Stack distributed video
store that the specification's claims are about:

* `src/metadata-service/redundancy_manager.py` — adaptive redundancy policy,
* `src/metadata-service/consensus.py` — ChunkPaxos ballot generation and
  the propose / prepare / accept / commit / cleanup pipeline,
* `src/metadata-service/erasure_coding.py` — Reed-Solomon erasure coding of
  chunks into `K` data + `M` parity fragments,
* `src/client/buffer_manager.py` — the playback buffer,
* `src/client/scheduler.py` — node selection and per-chunk download with
  retry and failover.

Python byte strings are modelled as `List` over a symbol type, dictionaries
as functions into `Option`, wall-clock timestamps as explicit parameters,
and network responses as oracles passed to the model.  `asyncio.sleep`
calls are recorded in a trace so that backoff behaviour can be stated.
-/

namespace VStack

/-! ## Redundancy manager (`redundancy_manager.py`) -/

/-- `RedundancyMode` enum from `redundancy_manager.py`. -/
inductive RedundancyMode
  | replication
  | erasure_coding
  deriving DecidableEq, Repr

/-- `RedundancyMode(manual_override)`: parsing a mode string, as the Python
`str`-valued enum constructor does (raising `ValueError` on anything else). -/
def RedundancyMode.ofString : String → Option RedundancyMode
  | "replication" => some .replication
  | "erasure_coding" => some .erasure_coding
  | _ => none

/-- The configuration dictionary built by `determine_redundancy_mode`
(description strings omitted). -/
inductive RedundancyConfig
  | replicated (copies : Nat)
  | erasure (dataShards parityShards totalShards minShardsForRecovery : Nat)
  deriving DecidableEq, Repr

/-- State of a `RedundancyManager` instance: constructor parameters plus the
`manual_overrides` dict (modelled as a function into `Option`). -/
structure RedundancyManager where
  popularityThreshold : Nat
  replicationFactor : Nat
  erasureDataShards : Nat
  erasureParityShards : Nat
  manualOverrides : String → Option RedundancyMode

/-- `RedundancyManager(...)` constructor defaults:
threshold 1000, replication factor 3, shards (3, 2), empty overrides. -/
def RedundancyManager.init : RedundancyManager :=
  { popularityThreshold := 1000
    replicationFactor := 3
    erasureDataShards := 3
    erasureParityShards := 2
    manualOverrides := fun _ => none }

/-- `erasure_total_shards` derived field. -/
def RedundancyManager.erasureTotalShards (m : RedundancyManager) : Nat :=
  m.erasureDataShards + m.erasureParityShards

/-- The config dictionary generated at the end of
`determine_redundancy_mode` for a given mode. -/
def RedundancyManager.configFor (m : RedundancyManager) :
    RedundancyMode → RedundancyConfig
  | .replication => .replicated m.replicationFactor
  | .erasure_coding =>
      .erasure m.erasureDataShards m.erasureParityShards
        m.erasureTotalShards m.erasureDataShards

/-- `RedundancyManager.determine_redundancy_mode(video_id, view_count,
manual_override)`.  A supplied override wins and is stored; otherwise a
stored override wins; otherwise pick by `view_count > popularity_threshold`.
An unparsable override string raises `ValueError`, modelled as `none`. -/
def RedundancyManager.determine_redundancy_mode (m : RedundancyManager)
    (videoId : String) (viewCount : Nat) (manualOverride : Option String) :
    Option ((RedundancyMode × RedundancyConfig) × RedundancyManager) :=
  match manualOverride with
  | some s =>
      match RedundancyMode.ofString s with
      | none => none
      | some mode =>
          let m' := { m with manualOverrides :=
            fun v => if v = videoId then some mode else m.manualOverrides v }
          some ((mode, m'.configFor mode), m')
  | none =>
      match m.manualOverrides videoId with
      | some mode => some ((mode, m.configFor mode), m)
      | none =>
          let mode : RedundancyMode :=
            if m.popularityThreshold < viewCount then .replication
            else .erasure_coding
          some ((mode, m.configFor mode), m)

/-- `RedundancyManager.set_manual_override(video_id, mode)`. -/
def RedundancyManager.set_manual_override (m : RedundancyManager)
    (videoId : String) (mode : RedundancyMode) : RedundancyManager :=
  { m with manualOverrides :=
      fun v => if v = videoId then some mode else m.manualOverrides v }

/-- `RedundancyManager.clear_manual_override(video_id)`. -/
def RedundancyManager.clear_manual_override (m : RedundancyManager)
    (videoId : String) : RedundancyManager :=
  { m with manualOverrides :=
      fun v => if v = videoId then none else m.manualOverrides v }

/-! ## Ballot generation (`consensus.py`, `_generate_ballot_number`) -/

/-- `ChunkPaxos._generate_ballot_number`: increment `ballot_counter`, then
return `(timestamp_ms <<< 16) ||| (counter &&& 0xFFFF)` together with the
new counter value.  `ts` is the millisecond timestamp observed by the call. -/
def generateBallotNumber (ts : Nat) (counter : Nat) : Nat × Nat :=
  let c := counter + 1
  ((ts <<< 16) ||| (c &&& 0xFFFF), c)

/-- The `ballot_counter` field after `n` generator calls in one process
(it starts at 0 in `ChunkPaxos.__init__`); `ts` gives the timestamp seen by
the `i`-th call. -/
def counterAfter (ts : Nat → Nat) : Nat → Nat
  | 0 => 0
  | n + 1 => (generateBallotNumber (ts n) (counterAfter ts n)).2

/-- The ballot returned by the `n`-th generator call (0-based) of a process
whose `i`-th call observes millisecond timestamp `ts i`. -/
def ballotAt (ts : Nat → Nat) (n : Nat) : Nat :=
  (generateBallotNumber (ts n) (counterAfter ts n)).1

theorem counterAfter_eq (ts : Nat → Nat) (n : Nat) : counterAfter ts n = n := by
  induction n with
  | zero => rfl
  | succ k ih => simp [counterAfter, generateBallotNumber, ih]

theorem ballotAt_eq (ts : Nat → Nat) (n : Nat) :
    ballotAt ts n = (ts n <<< 16) ||| ((n + 1) &&& 0xFFFF) := by
  simp [ballotAt, generateBallotNumber, counterAfter_eq]

theorem shiftLeft16_or_eq (t c : Nat) (hc : c < 65536) :
    (t <<< 16) ||| c = t * 65536 + c := by
  have hc' : c < 2 ^ 16 := by norm_num at hc ⊢; exact hc
  have hx : t <<< 16 = 2 ^ 16 * t := by
    rw [Nat.shiftLeft_eq, Nat.mul_comm]
  rw [hx, ← Nat.mul_add_lt_is_or hc' t, Nat.mul_comm]

/-- Claim C4 (counterexample): with a constant (hence non-decreasing) process
clock, the 65536-th generator call returns a ballot strictly smaller than the
65535-th, because the intra-process counter is masked to 16 bits and wraps.
This refutes monotonicity for "more than 2^16 calls falling in the same
millisecond". -/
theorem ballot_monotonicity_counterexample :
    ballotAt (fun _ => 1234) 65535 < ballotAt (fun _ => 1234) 65534 := by
  rw [ballotAt_eq, ballotAt_eq]
  decide

/-- Claim C4 (amended): every ballot returned by `_generate_ballot_number`
is strictly greater than every earlier ballot of the same process, provided
the process clock is non-decreasing and the process has made fewer than
2^16 generator calls in total (so the 16-bit counter mask never wraps). -/
theorem ballot_monotonicity (ts : Nat → Nat)
    (hts : ∀ i j, i ≤ j → ts i ≤ ts j)
    (m n : Nat) (hmn : m < n) (hn : n < 65535) :
    ballotAt ts m < ballotAt ts n := by
  rw [ballotAt_eq, ballotAt_eq]
  have hm1 : m + 1 &&& 0xFFFF = m + 1 := by
    have : (0xFFFF : Nat) = 2 ^ 16 - 1 := by norm_num
    rw [this, Nat.and_pow_two_sub_one_of_lt_two_pow]
    omega
  have hn1 : n + 1 &&& 0xFFFF = n + 1 := by
    have : (0xFFFF : Nat) = 2 ^ 16 - 1 := by norm_num
    rw [this, Nat.and_pow_two_sub_one_of_lt_two_pow]
    omega
  rw [hm1, hn1, shiftLeft16_or_eq _ _ (by omega), shiftLeft16_or_eq _ _ (by omega)]
  have h := hts m n (Nat.le_of_lt hmn)
  have h2 : ts m * 65536 ≤ ts n * 65536 := Nat.mul_le_mul_right _ h
  omega

/-- Claim C4 (witness): two consecutive calls in the same millisecond do
return strictly increasing ballots. -/
theorem ballot_monotonicity_witness :
    ballotAt (fun _ => 5) 0 < ballotAt (fun _ => 5) 1 :=
  ballot_monotonicity (fun _ => 5) (fun _ _ _ => Nat.le_refl 5) 0 1
    (by decide) (by decide)

/-- Claim C10: a manual override supplied in the call always determines the
returned mode and is stored; a previously stored override determines the
mode otherwise; with no override the policy returns REPLICATED iff the view
count strictly exceeds the popularity threshold and ERASURE with
`(data_shards, parity_shards)` otherwise; and after `clear_manual_override`
the decision reverts to the popularity rule. -/
theorem redundancy_decision_correct (m : RedundancyManager)
    (vid : String) (views : Nat) :
    (∀ s mode, RedundancyMode.ofString s = some mode →
      m.determine_redundancy_mode vid views (some s) =
        some (((mode, (m.set_manual_override vid mode).configFor mode)),
          m.set_manual_override vid mode)) ∧
    (∀ mode, m.manualOverrides vid = some mode →
      m.determine_redundancy_mode vid views none =
        some ((mode, m.configFor mode), m)) ∧
    (m.manualOverrides vid = none →
      m.determine_redundancy_mode vid views none =
        some ((if m.popularityThreshold < views then .replication
               else .erasure_coding,
               m.configFor (if m.popularityThreshold < views then .replication
               else .erasure_coding)), m)) ∧
    ((m.clear_manual_override vid).determine_redundancy_mode vid views none =
        some ((if m.popularityThreshold < views then .replication
               else .erasure_coding,
               (m.clear_manual_override vid).configFor
                 (if m.popularityThreshold < views then .replication
                  else .erasure_coding)), m.clear_manual_override vid)) := by
  refine ⟨?_, ?_, ?_, ?_⟩
  · intro s mode hs
    simp [RedundancyManager.determine_redundancy_mode, hs,
      RedundancyManager.set_manual_override]
  · intro mode hm
    simp [RedundancyManager.determine_redundancy_mode, hm]
  · intro hm
    simp [RedundancyManager.determine_redundancy_mode, hm]
  · simp [RedundancyManager.determine_redundancy_mode,
      RedundancyManager.clear_manual_override]

/-- Claim C10 (witness): the S7 scenario.  With the default manager,
views 1500 → REPLICATED with 3 copies; views 500 → ERASURE with (3, 2);
a manual ERASURE override despite views 5000 → ERASURE; after clearing the
override the popularity rule again yields REPLICATED. -/
theorem redundancy_decision_witness :
    (RedundancyManager.init.determine_redundancy_mode "v" 1500 none =
      some ((.replication, .replicated 3), RedundancyManager.init)) ∧
    (RedundancyManager.init.determine_redundancy_mode "v" 500 none =
      some ((.erasure_coding, .erasure 3 2 5 3), RedundancyManager.init)) ∧
    ((RedundancyManager.init.determine_redundancy_mode "v" 5000
        (some "erasure_coding")).map (fun r => r.1.1) = some .erasure_coding) ∧
    (((RedundancyManager.init.set_manual_override "v"
        .erasure_coding).clear_manual_override "v").determine_redundancy_mode
        "v" 5000 none).map (fun r => r.1.1) = some .replication := by
  refine ⟨?_, ?_, ?_, ?_⟩
  · have h := (redundancy_decision_correct RedundancyManager.init "v" 1500).2.2.1
      rfl
    simpa [RedundancyManager.init, RedundancyManager.configFor,
      RedundancyManager.erasureTotalShards] using h
  · have h := (redundancy_decision_correct RedundancyManager.init "v" 500).2.2.1
      rfl
    simpa [RedundancyManager.init, RedundancyManager.configFor,
      RedundancyManager.erasureTotalShards] using h
  · have h := (redundancy_decision_correct RedundancyManager.init "v" 5000).1
      "erasure_coding" .erasure_coding rfl
    simp [h]
  · have h := (redundancy_decision_correct
      (RedundancyManager.init.set_manual_override "v" .erasure_coding)
      "v" 5000).2.2.2
    simp only [h]
    simp [RedundancyManager.init, RedundancyManager.set_manual_override,
      RedundancyManager.configFor]

/-! ## Playback buffer (`buffer_manager.py`)

Wall-clock fields (`buffered_at`, `playback_start_time`,
`last_chunk_played_time`, `last_rebuffer_time`) and the temp-file path are
abstracted away: a spilled chunk is recorded with `data = none`.
`asyncio.Event`s are booleans. -/

/-- Configuration values read from `config` in `BufferManager.__init__`. -/
structure BufferConfig where
  targetBufferSec : ℚ
  lowWaterMarkSec : ℚ
  chunkDurationSec : ℚ
  startPlaybackSec : ℚ
  maxMemoryBytes : Nat

/-- `BufferedChunk` dataclass (minus the wall-clock timestamp; a chunk
spilled to disk has `data = none` and `spilled = true`). -/
structure BufferedChunk where
  chunk_id : String
  sequence_num : Nat
  data : Option (List Nat)
  size_bytes : Nat
  spilled : Bool
  deriving DecidableEq, Repr

/-- Mutable state of a `BufferManager`. -/
structure BufferManager where
  buffer : List BufferedChunk
  currentMemoryUsage : Nat
  currentPosition : Nat
  playbackStarted : Bool
  totalChunksBuffered : Nat
  totalChunksPlayed : Nat
  rebufferingEvents : Nat
  bufferUpdatedEvent : Bool
  playbackReadyEvent : Bool
  deriving DecidableEq, Repr

/-- `BufferManager.__init__`. -/
def BufferManager.init : BufferManager :=
  { buffer := []
    currentMemoryUsage := 0
    currentPosition := 0
    playbackStarted := false
    totalChunksBuffered := 0
    totalChunksPlayed := 0
    rebufferingEvents := 0
    bufferUpdatedEvent := false
    playbackReadyEvent := false }

/-- `get_buffer_level_seconds`: `len(self.buffer) * self.chunk_duration_sec`. -/
def BufferManager.get_buffer_level_seconds (cfg : BufferConfig)
    (st : BufferManager) : ℚ :=
  st.buffer.length * cfg.chunkDurationSec

/-- `needs_more_chunks`: level strictly below the low-water mark. -/
def BufferManager.needs_more_chunks (cfg : BufferConfig)
    (st : BufferManager) : Bool :=
  st.get_buffer_level_seconds cfg < cfg.lowWaterMarkSec

/-- `can_start_playback`: level at or above `start_playback_sec`. -/
def BufferManager.can_start_playback (cfg : BufferConfig)
    (st : BufferManager) : Bool :=
  cfg.startPlaybackSec ≤ st.get_buffer_level_seconds cfg

/-- The insertion loop of `add_chunk`: walk the deque and insert the new
chunk in front of the first entry with a larger `sequence_num`, else
append. -/
def insertByChunkSeq (c : BufferedChunk) : List BufferedChunk →
    List BufferedChunk
  | [] => [c]
  | x :: xs =>
      if c.sequence_num < x.sequence_num then c :: x :: xs
      else x :: insertByChunkSeq c xs

/-- `BufferManager.add_chunk(chunk_id, sequence_num, chunk_data)`.
Returns `(added?, new state)`.  Stale (`seq < current_position`) and
duplicate chunks are rejected with the state untouched; otherwise the chunk
is stored (spilled out of memory when the byte budget would be exceeded; the
temp-file write is assumed to succeed) and inserted in sorted position. -/
def BufferManager.add_chunk (cfg : BufferConfig) (st : BufferManager)
    (chunkId : String) (sequenceNum : Nat) (chunkData : List Nat) :
    Bool × BufferManager :=
  if sequenceNum < st.currentPosition then (false, st)
  else if st.buffer.any (fun c => c.sequence_num = sequenceNum) then (false, st)
  else
    let chunkSize := chunkData.length
    let spill := cfg.maxMemoryBytes < st.currentMemoryUsage + chunkSize
    let storedData : Option (List Nat) := if spill then none else some chunkData
    let mem' := if spill then st.currentMemoryUsage
        else st.currentMemoryUsage + chunkSize
    let c : BufferedChunk :=
      { chunk_id := chunkId
        sequence_num := sequenceNum
        data := storedData
        size_bytes := chunkSize
        spilled := spill }
    let st' := { st with
      buffer := insertByChunkSeq c st.buffer
      currentMemoryUsage := mem'
      totalChunksBuffered := st.totalChunksBuffered + 1
      bufferUpdatedEvent := true }
    let st'' := if st'.can_start_playback cfg then
        { st' with playbackReadyEvent := true } else st'
    (true, st'')

/-- `BufferManager.get_next_chunk_for_playback()`.  Pops and returns the
head chunk only when its `sequence_num` equals `current_position`, advancing
the position; an empty buffer after playback started is a rebuffering
event; a head that is ahead of the position is a gap and yields nothing. -/
def BufferManager.get_next_chunk_for_playback (st : BufferManager) :
    Option BufferedChunk × BufferManager :=
  match st.buffer with
  | [] =>
      if st.playbackStarted then
        (none, { st with rebufferingEvents := st.rebufferingEvents + 1
                         playbackReadyEvent := false })
      else (none, st)
  | head :: rest =>
      if head.sequence_num = st.currentPosition then
        let mem' := if head.data.isSome then
            st.currentMemoryUsage - head.size_bytes else st.currentMemoryUsage
        (some head, { st with
          buffer := rest
          currentMemoryUsage := mem'
          currentPosition := st.currentPosition + 1
          totalChunksPlayed := st.totalChunksPlayed + 1
          playbackStarted := true
          bufferUpdatedEvent := true })
      else (none, st)

/-- One interaction with the buffer: an `add_chunk` call or a
`get_next_chunk_for_playback` call. -/
inductive BufferOp
  | add (chunkId : String) (seq : Nat) (data : List Nat)
  | take
  deriving DecidableEq, Repr

/-- Run a sequence of buffer operations, collecting the chunks returned by
the take operations in order. -/
def runBuffer (cfg : BufferConfig) (st : BufferManager) :
    List BufferOp → BufferManager × List BufferedChunk
  | [] => (st, [])
  | .add id seq d :: ops => runBuffer cfg (st.add_chunk cfg id seq d).2 ops
  | .take :: ops =>
      let r := st.get_next_chunk_for_playback
      let rest := runBuffer cfg r.2 ops
      (rest.1, r.1.toList ++ rest.2)

/-- Buffer invariant: the deque is strictly sorted by `sequence_num` and
holds no sequence number below the playback position. -/
def BufferInvariant (st : BufferManager) : Prop :=
  st.buffer.Pairwise (fun a b => a.sequence_num < b.sequence_num) ∧
  ∀ c ∈ st.buffer, st.currentPosition ≤ c.sequence_num

theorem mem_insertByChunkSeq {c y : BufferedChunk} :
    ∀ {l : List BufferedChunk}, y ∈ insertByChunkSeq c l ↔ y = c ∨ y ∈ l
  | [] => by simp [insertByChunkSeq]
  | x :: xs => by
      by_cases h : c.sequence_num < x.sequence_num
      · simp only [insertByChunkSeq, if_pos h, List.mem_cons]
      · simp only [insertByChunkSeq, if_neg h, List.mem_cons,
          @mem_insertByChunkSeq c y xs]
        tauto

theorem pairwise_insertByChunkSeq {c : BufferedChunk} :
    ∀ {l : List BufferedChunk},
    l.Pairwise (fun a b => a.sequence_num < b.sequence_num) →
    (∀ x ∈ l, x.sequence_num ≠ c.sequence_num) →
    (insertByChunkSeq c l).Pairwise (fun a b => a.sequence_num < b.sequence_num)
  | [], _, _ => by simp [insertByChunkSeq]
  | x :: xs, hp, hne => by
      rcases List.pairwise_cons.1 hp with ⟨hx, hxs⟩
      by_cases h : c.sequence_num < x.sequence_num
      · simp only [insertByChunkSeq, if_pos h]
        refine List.pairwise_cons.2 ⟨?_, hp⟩
        intro y hy
        rcases List.mem_cons.1 hy with rfl | hy'
        · exact h
        · exact lt_trans h (hx y hy')
      · have hxc : x.sequence_num < c.sequence_num :=
          lt_of_le_of_ne (Nat.le_of_not_lt h)
            (hne x (List.mem_cons_self x xs))
        simp only [insertByChunkSeq, if_neg h]
        refine List.pairwise_cons.2 ⟨?_, ?_⟩
        · intro y hy
          rcases mem_insertByChunkSeq.1 hy with rfl | hy'
          · exact hxc
          · exact hx y hy'
        · exact pairwise_insertByChunkSeq hxs
            (fun z hz => hne z (List.mem_cons_of_mem x hz))

theorem map_insertByChunkSeq_perm (c : BufferedChunk) :
    ∀ (l : List BufferedChunk), (insertByChunkSeq c l).Perm (c :: l)
  | [] => by simp [insertByChunkSeq]
  | x :: xs => by
      by_cases h : c.sequence_num < x.sequence_num
      · simp [insertByChunkSeq, h]
      · simp only [insertByChunkSeq, if_neg h]
        exact ((map_insertByChunkSeq_perm c xs).cons x).trans
          (List.Perm.swap c x xs)

theorem addChunk_position (cfg : BufferConfig) (st : BufferManager)
    (id : String) (seq : Nat) (d : List Nat) :
    (st.add_chunk cfg id seq d).2.currentPosition = st.currentPosition := by
  unfold BufferManager.add_chunk
  split
  · rfl
  · split
    · rfl
    · simp only
      split <;> split <;> rfl

theorem addChunk_buffer_shape (cfg : BufferConfig) (st : BufferManager)
    (id : String) (seq : Nat) (d : List Nat) :
    (st.add_chunk cfg id seq d).2.buffer = st.buffer ∨
    ∃ c, c.sequence_num = seq ∧
      (st.add_chunk cfg id seq d).2.buffer = insertByChunkSeq c st.buffer := by
  unfold BufferManager.add_chunk
  split
  · exact Or.inl rfl
  split
  · exact Or.inl rfl
  simp only
  split <;> split <;> exact Or.inr ⟨_, rfl, rfl⟩

theorem addChunk_invariant (cfg : BufferConfig) (st : BufferManager)
    (id : String) (seq : Nat) (d : List Nat) (h : BufferInvariant st) :
    BufferInvariant (st.add_chunk cfg id seq d).2 := by
  by_cases hstale : seq < st.currentPosition
  · unfold BufferManager.add_chunk
    rw [if_pos hstale]
    exact h
  by_cases hdup : st.buffer.any (fun c => c.sequence_num = seq) = true
  · unfold BufferManager.add_chunk
    rw [if_neg hstale, if_pos hdup]
    exact h
  have hdup' : ∀ x ∈ st.buffer, x.sequence_num ≠ seq := by
    intro x hx hc
    exact hdup (List.any_eq_true.2 ⟨x, hx, by simp [hc]⟩)
  have hpos := addChunk_position cfg st id seq d
  rcases addChunk_buffer_shape cfg st id seq d with hb | ⟨c, hcseq, hb⟩
  · exact ⟨hb ▸ h.1, by rw [hb, hpos]; exact h.2⟩
  constructor
  · rw [hb]
    exact pairwise_insertByChunkSeq h.1 (fun x hx => hcseq ▸ hdup' x hx)
  · intro y hy
    rw [hb] at hy
    rw [hpos]
    rcases mem_insertByChunkSeq.1 hy with rfl | hmem
    · rw [hcseq]
      exact Nat.le_of_not_lt hstale
    · exact h.2 y hmem


theorem take_of_empty (st : BufferManager) (hb : st.buffer = []) :
    st.get_next_chunk_for_playback =
      (none, if st.playbackStarted then
        { st with rebufferingEvents := st.rebufferingEvents + 1
                  playbackReadyEvent := false }
        else st) := by
  unfold BufferManager.get_next_chunk_for_playback
  rw [hb]
  by_cases hps : st.playbackStarted <;> simp [hps]

theorem take_of_hit (st : BufferManager) (head : BufferedChunk)
    (rest : List BufferedChunk) (hb : st.buffer = head :: rest)
    (hseq : head.sequence_num = st.currentPosition) :
    st.get_next_chunk_for_playback =
      (some head, { st with
        buffer := rest
        currentMemoryUsage := if head.data.isSome then
          st.currentMemoryUsage - head.size_bytes else st.currentMemoryUsage
        currentPosition := st.currentPosition + 1
        totalChunksPlayed := st.totalChunksPlayed + 1
        playbackStarted := true
        bufferUpdatedEvent := true }) := by
  unfold BufferManager.get_next_chunk_for_playback
  rw [hb]
  simp [hseq]

theorem take_of_gap (st : BufferManager) (head : BufferedChunk)
    (rest : List BufferedChunk) (hb : st.buffer = head :: rest)
    (hseq : head.sequence_num ≠ st.currentPosition) :
    st.get_next_chunk_for_playback = (none, st) := by
  unfold BufferManager.get_next_chunk_for_playback
  rw [hb]
  simp [hseq]

theorem take_invariant (st : BufferManager) (h : BufferInvariant st) :
    BufferInvariant st.get_next_chunk_for_playback.2 ∧
    st.currentPosition ≤ st.get_next_chunk_for_playback.2.currentPosition := by
  rcases hb : st.buffer with _ | ⟨head, rest⟩
  · rw [take_of_empty st hb]
    by_cases hps : st.playbackStarted <;>
      simp only [hps, if_true, if_false, ite_true, ite_false] <;>
      exact ⟨⟨h.1, h.2⟩, le_refl _⟩
  · have hp := h.1
    rw [hb] at hp
    rcases List.pairwise_cons.1 hp with ⟨hlt, hrest⟩
    by_cases hseq : head.sequence_num = st.currentPosition
    · rw [take_of_hit st head rest hb hseq]
      refine ⟨⟨hrest, ?_⟩, Nat.le_succ _⟩
      intro c hc
      have := hlt c hc
      show st.currentPosition + 1 ≤ c.sequence_num
      omega
    · rw [take_of_gap st head rest hb hseq]
      exact ⟨h, le_refl _⟩

theorem runBuffer_spec (cfg : BufferConfig) :
    ∀ (ops : List BufferOp) (st : BufferManager), BufferInvariant st →
    (runBuffer cfg st ops).2.map (fun c => c.sequence_num) =
      List.range' st.currentPosition
        ((runBuffer cfg st ops).1.currentPosition - st.currentPosition) ∧
    st.currentPosition ≤ (runBuffer cfg st ops).1.currentPosition ∧
    BufferInvariant (runBuffer cfg st ops).1
  | [], st, h => by simp [runBuffer, h]
  | .add id seq d :: ops, st, h => by
      have ih := runBuffer_spec cfg ops (st.add_chunk cfg id seq d).2
        (addChunk_invariant cfg st id seq d h)
      rw [addChunk_position cfg st id seq d] at ih
      simpa [runBuffer] using ih
  | .take :: ops, st, h => by
      rcases hb : st.buffer with _ | ⟨head, rest⟩
      · simp only [runBuffer]
        have ih := runBuffer_spec cfg ops st.get_next_chunk_for_playback.2
          (take_invariant st h).1
        rw [take_of_empty st hb] at ih ⊢
        by_cases hps : st.playbackStarted <;>
          simp only [hps, if_true, if_false, ite_true, ite_false] at ih ⊢ <;>
          simpa using ih
      · by_cases hseq : head.sequence_num = st.currentPosition
        · simp only [runBuffer]
          have ih := runBuffer_spec cfg ops st.get_next_chunk_for_playback.2
            (take_invariant st h).1
          rw [take_of_hit st head rest hb hseq] at ih ⊢
          have hle := ih.2.1
          have hpos : ({ st with
              buffer := rest
              currentMemoryUsage := if head.data.isSome then
                st.currentMemoryUsage - head.size_bytes
                else st.currentMemoryUsage
              currentPosition := st.currentPosition + 1
              totalChunksPlayed := st.totalChunksPlayed + 1
              playbackStarted := true
              bufferUpdatedEvent := true } : BufferManager).currentPosition
              = st.currentPosition + 1 := rfl
          rw [hpos] at ih hle
          refine ⟨?_, by omega, ih.2.2⟩
          simp only [List.map_append, ih.1, Option.toList_some,
            List.map_cons, List.map_nil, hseq]
          have hcount : ∀ p : Nat, st.currentPosition + 1 ≤ p →
              p - st.currentPosition = (p - (st.currentPosition + 1)) + 1 := by
            intro p hp
            omega
          rw [hcount _ hle, List.range'_succ]
          simp
        · have ih := runBuffer_spec cfg ops st h
          simp only [runBuffer, take_of_gap st head rest hb hseq]
          simpa using ih

theorem addChunk_success (cfg : BufferConfig) (st : BufferManager)
    (id : String) (seq : Nat) (d : List Nat)
    (h1 : ¬ seq < st.currentPosition)
    (h2 : ¬ st.buffer.any (fun c => c.sequence_num = seq) = true) :
    (st.add_chunk cfg id seq d).1 = true ∧
    ∃ c : BufferedChunk, c.sequence_num = seq ∧
      (st.add_chunk cfg id seq d).2.buffer = insertByChunkSeq c st.buffer := by
  unfold BufferManager.add_chunk
  rw [if_neg h1, if_neg h2]
  simp only
  constructor
  · trivial
  · split <;> split <;> exact ⟨_, rfl, rfl⟩

theorem addChunk_reject_stale (cfg : BufferConfig) (st : BufferManager)
    (id : String) (seq : Nat) (d : List Nat)
    (h1 : seq < st.currentPosition) :
    st.add_chunk cfg id seq d = (false, st) := by
  unfold BufferManager.add_chunk
  rw [if_pos h1]

theorem addChunk_reject_dup (cfg : BufferConfig) (st : BufferManager)
    (id : String) (seq : Nat) (d : List Nat)
    (h1 : ¬ seq < st.currentPosition)
    (h2 : st.buffer.any (fun c => c.sequence_num = seq) = true) :
    st.add_chunk cfg id seq d = (false, st) := by
  unfold BufferManager.add_chunk
  rw [if_neg h1, if_pos h2]

/-- Claim C5: over every sequence of `add_chunk` / `get_next_chunk_for_playback`
operations from the initial buffer state, the chunks returned by the take
operation carry exactly the sequence numbers `0, 1, 2, ...` in order —
strictly ascending, gap-free, duplicate-free; moreover a take returns a chunk
only when the head's `sequence_num` equals `current_position`, removing it
and advancing the position by exactly one, and returns nothing when the head
is ahead of `current_position`. -/
theorem buffer_in_order_delivery (cfg : BufferConfig) (ops : List BufferOp) :
    ((runBuffer cfg BufferManager.init ops).2.map (fun c => c.sequence_num) =
      List.range (runBuffer cfg BufferManager.init ops).1.currentPosition) ∧
    (∀ (st : BufferManager) (c : BufferedChunk) (st2 : BufferManager),
      st.get_next_chunk_for_playback = (some c, st2) →
      st.buffer.head? = some c ∧ c.sequence_num = st.currentPosition ∧
      st2.currentPosition = st.currentPosition + 1 ∧
      st2.buffer = st.buffer.tail) ∧
    (∀ (st : BufferManager) (head : BufferedChunk)
      (rest : List BufferedChunk), st.buffer = head :: rest →
      st.currentPosition < head.sequence_num →
      st.get_next_chunk_for_playback = (none, st)) := by
  refine ⟨?_, ?_, ?_⟩
  · have h := runBuffer_spec cfg ops BufferManager.init
      ⟨List.Pairwise.nil, by intro c hc; cases hc⟩
    have h0 : BufferManager.init.currentPosition = 0 := rfl
    rw [h0] at h
    rw [h.1, List.range_eq_range']
    simp
  · intro st c st2 htake
    rcases hb : st.buffer with _ | ⟨head, rest⟩
    · rw [take_of_empty st hb] at htake
      by_cases hps : st.playbackStarted <;>
        simp [hps] at htake
    · by_cases hseq : head.sequence_num = st.currentPosition
      · rw [take_of_hit st head rest hb hseq] at htake
        have hc : c = head := by
          have := congrArg Prod.fst htake
          simpa using this.symm
        have hst2 := congrArg Prod.snd htake
        simp only at hst2
        subst hc
        subst hst2
        exact ⟨rfl, hseq, rfl, rfl⟩
      · rw [take_of_gap st head rest hb hseq] at htake
        simp at htake
  · intro st head rest hb hpos
    exact take_of_gap st head rest hb (by omega)

/-- Claim C8: `add_chunk` returns false and leaves the state unchanged when
the sequence number is stale (below `current_position`) or already buffered;
otherwise it returns true and inserts the chunk keeping the buffered
sequence numbers strictly sorted; and a second add with the same sequence
number is always a rejected no-op. -/
theorem add_chunk_idempotent_sorted (cfg : BufferConfig) (st : BufferManager)
    (id : String) (seq : Nat) (d : List Nat) :
    ((seq < st.currentPosition ∨ ∃ c ∈ st.buffer, c.sequence_num = seq) →
      st.add_chunk cfg id seq d = (false, st)) ∧
    (st.buffer.Pairwise (fun a b => a.sequence_num < b.sequence_num) →
      st.currentPosition ≤ seq → (∀ c ∈ st.buffer, c.sequence_num ≠ seq) →
      (st.add_chunk cfg id seq d).1 = true ∧
      ((st.add_chunk cfg id seq d).2.buffer.map
        (fun c => c.sequence_num)).Perm
          (seq :: st.buffer.map (fun c => c.sequence_num)) ∧
      (st.add_chunk cfg id seq d).2.buffer.Pairwise
        (fun a b => a.sequence_num < b.sequence_num)) ∧
    (∀ (id2 : String) (d2 : List Nat),
      (st.add_chunk cfg id seq d).2.add_chunk cfg id2 seq d2 =
        (false, (st.add_chunk cfg id seq d).2)) := by
  refine ⟨?_, ?_, ?_⟩
  · intro hrej
    by_cases h1 : seq < st.currentPosition
    · exact addChunk_reject_stale cfg st id seq d h1
    · rcases hrej with h1' | ⟨c, hc, hcs⟩
      · exact absurd h1' h1
      · exact addChunk_reject_dup cfg st id seq d h1
          (List.any_eq_true.2 ⟨c, hc, by simp [hcs]⟩)
  · intro hsorted hpos hfresh
    have h1 : ¬ seq < st.currentPosition := by omega
    have h2 : ¬ st.buffer.any (fun c => c.sequence_num = seq) = true := by
      intro hany
      rcases List.any_eq_true.1 hany with ⟨c, hc, hcs⟩
      exact hfresh c hc (by simpa using hcs)
    rcases addChunk_success cfg st id seq d h1 h2 with ⟨hret, c, hcs, hbuf⟩
    refine ⟨hret, ?_, ?_⟩
    · rw [hbuf]
      have := (map_insertByChunkSeq_perm c st.buffer).map
        (fun x => x.sequence_num)
      simpa [hcs] using this
    · rw [hbuf]
      exact pairwise_insertByChunkSeq hsorted
        (fun x hx => hcs ▸ hfresh x hx)
  · intro id2 d2
    by_cases h1 : seq < st.currentPosition
    · rw [addChunk_reject_stale cfg st id seq d h1]
      exact addChunk_reject_stale cfg st id2 seq d2 h1
    · by_cases h2 : st.buffer.any (fun c => c.sequence_num = seq) = true
      · rw [addChunk_reject_dup cfg st id seq d h1 h2]
        exact addChunk_reject_dup cfg st id2 seq d2 h1 h2
      · rcases addChunk_success cfg st id seq d h1 h2 with ⟨_, c, hcs, hbuf⟩
        have hpos2 := addChunk_position cfg st id seq d
        have hany2 : ((st.add_chunk cfg id seq d).2.buffer.any
            (fun x => x.sequence_num = seq)) = true := by
          rw [hbuf]
          exact List.any_eq_true.2
            ⟨c, mem_insertByChunkSeq.2 (Or.inl rfl), by simp [hcs]⟩
        exact addChunk_reject_dup cfg (st.add_chunk cfg id seq d).2 id2 seq d2
          (by rw [hpos2]; exact h1) hany2

/-- A concrete buffer configuration (the defaults of `config.py`:
target 30 s, low-water 15 s, chunk duration 10 s, start 10 s). -/
def cfgW : BufferConfig :=
  { targetBufferSec := 30
    lowWaterMarkSec := 15
    chunkDurationSec := 10
    startPlaybackSec := 10
    maxMemoryBytes := 1000000 }

/-- A concrete operation sequence with an out-of-order arrival. -/
def opsW : List BufferOp :=
  [.add "c0" 0 [1, 2], .add "c2" 2 [3], .take, .take, .add "c1" 1 [9],
   .take, .take]

/-- A buffered chunk whose sequence number is ahead of the position. -/
def chunkGap : BufferedChunk :=
  { chunk_id := "g", sequence_num := 3, data := some [], size_bytes := 0,
    spilled := false }

/-- A buffer state whose head chunk is ahead of `current_position`. -/
def stGap : BufferManager :=
  { BufferManager.init with buffer := [chunkGap], currentPosition := 1 }

/-- Claim C5 (witness): the in-order-delivery theorem applied at a concrete
operation sequence, and the gap case applied at a concrete state whose head
is ahead of the playback position. -/
theorem buffer_in_order_delivery_witness :
    ((runBuffer cfgW BufferManager.init opsW).2.map
        (fun c => c.sequence_num) =
      List.range (runBuffer cfgW BufferManager.init opsW).1.currentPosition) ∧
    stGap.get_next_chunk_for_playback = (none, stGap) :=
  ⟨(buffer_in_order_delivery cfgW opsW).1,
   (buffer_in_order_delivery cfgW opsW).2.2 stGap chunkGap [] rfl
     (by decide)⟩

/-- A buffer state that has already played five chunks. -/
def stStale : BufferManager :=
  { BufferManager.init with currentPosition := 5 }

/-- Claim C8 (witness): a stale add is rejected with the state unchanged, a
fresh add succeeds, and re-adding an already-buffered sequence number is a
rejected no-op. -/
theorem add_chunk_idempotent_sorted_witness :
    (stStale.add_chunk cfgW "a" 3 [1] = (false, stStale)) ∧
    ((BufferManager.init.add_chunk cfgW "b" 0 [1, 2]).1 = true) ∧
    ((BufferManager.init.add_chunk cfgW "b" 0 [1]).2.add_chunk cfgW "c" 0 [9] =
      (false, (BufferManager.init.add_chunk cfgW "b" 0 [1]).2)) := by
  refine ⟨?_, ?_, ?_⟩
  · exact (add_chunk_idempotent_sorted cfgW stStale "a" 3 [1]).1
      (Or.inl (by decide))
  · exact ((add_chunk_idempotent_sorted cfgW BufferManager.init
      "b" 0 [1, 2]).2.1 List.Pairwise.nil (Nat.le_refl 0)
      (by intro c hc; simp [BufferManager.init] at hc)).1
  · exact (add_chunk_idempotent_sorted cfgW BufferManager.init
      "b" 0 [1]).2.2 "c" [9]

/-! ## Chunk scheduler (`scheduler.py`)

The network monitor is abstracted as oracles `isNodeHealthy` /
`getNodeScore` (its windows live in `network_monitor.py`), the HTTP
download as an oracle mapping `(node, attempt index)` to the bytes returned
(`none` = timeout / non-200 / connection error), and `asyncio.sleep` calls
are appended to a trace.  Float arithmetic is modelled exactly over `ℚ`.
Wall-clock bandwidth reporting and the transient
`active_downloads`/`node_load` increment inside a single attempt (which is
undone in the `finally` block before anything else reads it in this
sequential per-chunk model) are omitted. -/

/-- The scheduler's environment: `network_monitor` oracles and config. -/
structure SchedulerEnv where
  isNodeHealthy : String → Bool
  getNodeScore : String → ℚ
  maxRetries : Nat

/-- Mutable scheduler state (`node_load` as a total function defaulting to
0 like `defaultdict(int)`, `chunk_sources` as a partial map, plus the sleep
trace). -/
structure SchedulerState where
  nodeLoad : String → Nat
  failoverCount : Nat
  failedDownloads : Nat
  totalDownloads : Nat
  chunkSources : String → Option String
  sleeps : List ℚ

/-- `ChunkScheduler.__init__` counters. -/
def SchedulerState.init : SchedulerState :=
  { nodeLoad := fun _ => 0
    failoverCount := 0
    failedDownloads := 0
    totalDownloads := 0
    chunkSources := fun _ => none
    sleeps := [] }

/-- The load-adjusted score of `select_best_node`:
`score × 1.0 / (1.0 + node_load × 0.2)`. -/
def adjScore (env : SchedulerEnv) (st : SchedulerState) (n : String) : ℚ :=
  env.getNodeScore n * (1 / (1 + (st.nodeLoad n : ℚ) * (0.2 : ℚ)))

/-- The candidate pool of `select_best_node`: healthy replicas, falling back
to all replicas when none is healthy. -/
def schedPool (env : SchedulerEnv) (replicas : List String) : List String :=
  let healthy := replicas.filter env.isNodeHealthy
  if healthy.isEmpty then replicas else healthy

/-- CPython `max(...)` over the iteration order: the first element attaining
the maximum wins (a later element replaces the best only when strictly
greater).  `node_scores` is a dict keyed in first-occurrence order whose
values depend only on the key, so folding over the full pool is
extensionally the same as `max` over the dict's keys. -/
def pyMax (f : String → ℚ) : String → List String → String
  | best, [] => best
  | best, n :: ns => if f best < f n then pyMax f n ns else pyMax f best ns

/-- `ChunkScheduler.select_best_node(chunk_id, available_replicas)`. -/
def select_best_node (env : SchedulerEnv) (st : SchedulerState)
    (replicas : List String) : Option String :=
  if replicas.isEmpty then none
  else
    match schedPool env replicas with
    | [] => none
    | b :: rest => some (pyMax (adjScore env st) b rest)

theorem pyMax_nil (f : String → ℚ) (b : String) : pyMax f b [] = b := rfl

theorem pyMax_cons (f : String → ℚ) (b n : String) (ns : List String) :
    pyMax f b (n :: ns) =
      if f b < f n then pyMax f n ns else pyMax f b ns := rfl

theorem pyMax_mem (f : String → ℚ) :
    ∀ (l : List String) (b : String), pyMax f b l ∈ b :: l
  | [], b => by
      rw [pyMax_nil]
      exact List.mem_cons_self b []
  | n :: ns, b => by
      rw [pyMax_cons]
      by_cases h : f b < f n
      · rw [if_pos h]
        exact List.mem_cons_of_mem b (pyMax_mem f ns n)
      · rw [if_neg h]
        rcases List.mem_cons.1 (pyMax_mem f ns b) with he | hm
        · rw [he]
          exact List.mem_cons_self b (n :: ns)
        · exact List.mem_cons_of_mem b (List.mem_cons_of_mem n hm)

theorem pyMax_le (f : String → ℚ) :
    ∀ (l : List String) (b : String), ∀ n ∈ b :: l, f n ≤ f (pyMax f b l)
  | [], b, n, hn => by
      rcases List.mem_cons.1 hn with rfl | h
      · rw [pyMax_nil]
      · cases h
  | m :: ns, b, n, hn => by
      rw [pyMax_cons]
      by_cases h : f b < f m
      · rw [if_pos h]
        rcases List.mem_cons.1 hn with he | hn'
        · rw [he]
          exact le_of_lt (lt_of_lt_of_le h
            (pyMax_le f ns m m (List.mem_cons_self m ns)))
        · rcases List.mem_cons.1 hn' with he | hn''
          · rw [he]
            exact pyMax_le f ns m m (List.mem_cons_self m ns)
          · exact pyMax_le f ns m n (List.mem_cons_of_mem m hn'')
      · rw [if_neg h]
        rcases List.mem_cons.1 hn with he | hn'
        · rw [he]
          exact pyMax_le f ns b b (List.mem_cons_self b ns)
        · rcases List.mem_cons.1 hn' with he | hn''
          · rw [he]
            exact le_trans (le_of_not_lt h)
              (pyMax_le f ns b b (List.mem_cons_self b ns))
          · exact pyMax_le f ns b n (List.mem_cons_of_mem b hn'')

theorem pyMax_cases (f : String → ℚ) :
    ∀ (l : List String) (b : String),
    pyMax f b l = b ∨ (pyMax f b l ∈ l ∧ f b < f (pyMax f b l))
  | [], _ => Or.inl (pyMax_nil _ _)
  | m :: ns, b => by
      rw [pyMax_cons]
      by_cases h : f b < f m
      · rw [if_pos h]
        rcases pyMax_cases f ns m with he | ⟨hm, hlt⟩
        · rw [he]
          exact Or.inr ⟨List.mem_cons_self m ns, h⟩
        · exact Or.inr ⟨List.mem_cons_of_mem m hm, lt_trans h hlt⟩
      · rw [if_neg h]
        rcases pyMax_cases f ns b with he | ⟨hm, hlt⟩
        · exact Or.inl he
        · exact Or.inr ⟨List.mem_cons_of_mem m hm, hlt⟩

theorem pyMax_first (f : String → ℚ) :
    ∀ (l : List String) (b : String), (b :: l).Nodup →
    ∀ n ∈ b :: l, f n = f (pyMax f b l) →
    (b :: l).indexOf (pyMax f b l) ≤ (b :: l).indexOf n
  | [], b, _, n, hn, _ => by
      rcases List.mem_cons.1 hn with rfl | h
      · rw [pyMax_nil]
      · cases h
  | m :: ns, b, hnd, n, hn, hfn => by
      rcases List.nodup_cons.1 hnd with ⟨hbn, hnd'⟩
      rcases List.nodup_cons.1 hnd' with ⟨hmns, hndns⟩
      rw [pyMax_cons] at hfn ⊢
      by_cases h : f b < f m
      · rw [if_pos h] at hfn ⊢
        have hfmr : f m ≤ f (pyMax f m ns) :=
          pyMax_le f ns m m (List.mem_cons_self m ns)
        have hbr : f b < f (pyMax f m ns) := lt_of_lt_of_le h hfmr
        have hrb : pyMax f m ns ≠ b := by
          intro he
          rw [he] at hbr
          exact lt_irrefl _ hbr
        have hnb : n ≠ b := by
          intro he
          rw [he] at hfn
          rw [← hfn] at hbr
          exact lt_irrefl _ hbr
        have hn' : n ∈ m :: ns := by
          rcases List.mem_cons.1 hn with rfl | h'
          · exact absurd rfl hnb
          · exact h'
        rw [List.indexOf_cons_ne _ (Ne.symm hrb),
          List.indexOf_cons_ne _ (Ne.symm hnb)]
        exact Nat.succ_le_succ (pyMax_first f ns m hnd' n hn' hfn)
      · rw [if_neg h] at hfn ⊢
        rcases pyMax_cases f ns b with he | ⟨hmem, hlt⟩
        · rw [he] at hfn ⊢
          rw [List.indexOf_cons_self]
          exact Nat.zero_le _
        · have hrb : pyMax f b ns ≠ b := by
            intro he2
            rw [he2] at hlt
            exact lt_irrefl _ hlt
          have hnb : n ≠ b := by
            intro he2
            rw [he2] at hfn
            rw [← hfn] at hlt
            exact lt_irrefl _ hlt
          have hnm : n ≠ m := by
            intro he2
            rw [he2] at hfn
            rw [← hfn] at hlt
            exact h hlt
          have hrm : pyMax f b ns ≠ m := by
            intro he2
            exact hmns (he2 ▸ hmem)
          have hn' : n ∈ ns := by
            rcases List.mem_cons.1 hn with rfl | h'
            · exact absurd rfl hnb
            · rcases List.mem_cons.1 h' with rfl | h''
              · exact absurd rfl hnm
              · exact h''
          have hbns : (b :: ns).Nodup := List.nodup_cons.2
            ⟨fun hc => hbn (List.mem_cons_of_mem m hc), hndns⟩
          have hih := pyMax_first f ns b hbns n
            (List.mem_cons_of_mem b hn') hfn
          rw [List.indexOf_cons_ne _ (Ne.symm hrb),
            List.indexOf_cons_ne _ (Ne.symm hnb)] at hih
          rw [List.indexOf_cons_ne _ (Ne.symm hrb),
            List.indexOf_cons_ne _ (Ne.symm hnb),
            List.indexOf_cons_ne _ (Ne.symm hrm),
            List.indexOf_cons_ne _ (Ne.symm hnm)]
          exact Nat.succ_le_succ (Nat.succ_le_succ
            (Nat.le_of_succ_le_succ hih))

theorem indexOf_filter_le (p : String → Bool) :
    ∀ (l : List String), l.Nodup → ∀ a b : String, a ∈ l.filter p →
    b ∈ l.filter p →
    (l.filter p).indexOf a ≤ (l.filter p).indexOf b →
    l.indexOf a ≤ l.indexOf b
  | [], _, a, b, ha, _, _ => by simp at ha
  | x :: xs, hnd, a, b, ha, hb, hle => by
      rcases List.nodup_cons.1 hnd with ⟨hx, hnd'⟩
      by_cases hpx : p x
      · rw [List.filter_cons_of_pos hpx] at ha hb hle
        by_cases hax : a = x
        · subst hax
          rw [List.indexOf_cons_self]
          exact Nat.zero_le _
        · by_cases hbx : b = x
          · subst hbx
            rw [List.indexOf_cons_ne _ (Ne.symm hax),
              List.indexOf_cons_self] at hle
            exact absurd hle (Nat.not_succ_le_zero _)
          · have ha' : a ∈ xs.filter p := by
              rcases List.mem_cons.1 ha with rfl | h'
              · exact absurd rfl hax
              · exact h'
            have hb' : b ∈ xs.filter p := by
              rcases List.mem_cons.1 hb with rfl | h'
              · exact absurd rfl hbx
              · exact h'
            rw [List.indexOf_cons_ne _ (Ne.symm hax),
              List.indexOf_cons_ne _ (Ne.symm hbx)] at hle
            rw [List.indexOf_cons_ne _ (Ne.symm hax),
              List.indexOf_cons_ne _ (Ne.symm hbx)]
            exact Nat.succ_le_succ (indexOf_filter_le p xs hnd' a b ha' hb'
              (Nat.le_of_succ_le_succ hle))
      · rw [List.filter_cons_of_neg hpx] at ha hb hle
        have hax : a ≠ x := by
          intro he
          exact hx (he ▸ List.mem_of_mem_filter ha)
        have hbx : b ≠ x := by
          intro he
          exact hx (he ▸ List.mem_of_mem_filter hb)
        rw [List.indexOf_cons_ne _ (Ne.symm hax),
          List.indexOf_cons_ne _ (Ne.symm hbx)]
        exact Nat.succ_le_succ (indexOf_filter_le p xs hnd' a b ha hb hle)

/-- Claim C6: for every non-empty replica list, `select_best_node` restricts
to the currently healthy replicas (falling back to the full list when none
is healthy) and returns the pool member maximizing
`score(node) × 1/(1 + 0.2 × activeLoad(node))`, breaking ties in favor of
the node appearing earliest in the replica list. -/
theorem select_best_node_correct (env : SchedulerEnv) (st : SchedulerState)
    (replicas : List String) (hne : replicas ≠ []) (hnd : replicas.Nodup) :
    ∃ best, select_best_node env st replicas = some best ∧
      best ∈ schedPool env replicas ∧
      (∀ n ∈ schedPool env replicas, adjScore env st n ≤ adjScore env st best) ∧
      (∀ n ∈ schedPool env replicas,
        adjScore env st n = adjScore env st best →
        replicas.indexOf best ≤ replicas.indexOf n) := by
  have hpool : schedPool env replicas ≠ [] := by
    by_cases hh : (replicas.filter env.isNodeHealthy).isEmpty
    · simpa [schedPool, hh] using hne
    · simp only [schedPool, if_neg hh]
      intro hc
      rw [hc] at hh
      exact hh rfl
  rcases hp : schedPool env replicas with _ | ⟨b, rest⟩
  · exact absurd hp hpool
  have hpnd : (b :: rest).Nodup := by
    rw [← hp]
    by_cases hh : (replicas.filter env.isNodeHealthy).isEmpty
    · simpa [schedPool, hh] using hnd
    · simp only [schedPool, if_neg hh]
      exact hnd.filter _
  refine ⟨pyMax (adjScore env st) b rest, ?_, ?_, ?_, ?_⟩
  · unfold select_best_node
    rw [if_neg (by simpa using hne), hp]
  · exact pyMax_mem _ rest b
  · exact fun n hn => pyMax_le _ rest b n hn
  · intro n hn hfe
    have htie := pyMax_first (adjScore env st) rest b hpnd n hn hfe
    have hbest_mem : pyMax (adjScore env st) b rest ∈ b :: rest :=
      pyMax_mem _ rest b
    simp only [schedPool] at hp
    by_cases hh : (replicas.filter env.isNodeHealthy).isEmpty
    · rw [if_pos hh] at hp
      rw [hp]
      exact htie
    · rw [if_neg hh] at hp
      exact indexOf_filter_le env.isNodeHealthy replicas hnd _ n
        (hp ▸ hbest_mem) (hp ▸ hn) (hp ▸ htie)

/-- A concrete scheduler environment: node n1 unhealthy, n2 scores higher. -/
def envW : SchedulerEnv :=
  { isNodeHealthy := fun n => n ≠ "n1"
    getNodeScore := fun n => if n = "n2" then 2 else 1
    maxRetries := 3 }

/-- Claim C6 (witness): node selection applied to a concrete three-replica
list with an unhealthy first replica. -/
theorem select_best_node_correct_witness :
    ∃ best, select_best_node envW SchedulerState.init ["n1", "n2", "n3"] =
        some best ∧
      best ∈ schedPool envW ["n1", "n2", "n3"] ∧
      (∀ n ∈ schedPool envW ["n1", "n2", "n3"],
        adjScore envW SchedulerState.init n ≤
          adjScore envW SchedulerState.init best) ∧
      (∀ n ∈ schedPool envW ["n1", "n2", "n3"],
        adjScore envW SchedulerState.init n =
          adjScore envW SchedulerState.init best →
        (["n1", "n2", "n3"] : List String).indexOf best ≤
          (["n1", "n2", "n3"] : List String).indexOf n) :=
  select_best_node_correct envW SchedulerState.init ["n1", "n2", "n3"]
    (by decide) (by decide)

/-- `_record_successful_download(chunk_id, node_url, size)`: bump
`total_downloads` and remember the chunk's source (the wall-clock
`download_history` timestamp is omitted). -/
def recordSuccess (cid node : String) (st : SchedulerState) : SchedulerState :=
  { st with
    totalDownloads := st.totalDownloads + 1
    chunkSources := fun c => if c = cid then some node else st.chunkSources c }

/-- The `for attempt in range(retry_count)` loop of `download_chunk`,
with `r` attempts still to make (the current attempt index is
`retryCount - r`).  `oracle node i` is the outcome of attempt `i` against
`node`: bytes on success, `none` on timeout / bad status / connection
error.  A failed attempt other than the last sleeps `0.5 * 2 ** attempt`. -/
def tryNodeFrom (oracle : String → Nat → Option (List Nat))
    (cid node : String) (retryCount : Nat) :
    Nat → SchedulerState → Option (List Nat) × SchedulerState
  | 0, st => (none, st)
  | r + 1, st =>
      let attempt := retryCount - (r + 1)
      match oracle node attempt with
      | some bytes => (some bytes, recordSuccess cid node st)
      | none =>
          if attempt < retryCount - 1 then
            tryNodeFrom oracle cid node retryCount r
              { st with sleeps := st.sleeps ++ [(0.5 : ℚ) * 2 ^ attempt] }
          else (none, st)

/-- All `retry_count` attempts against one node. -/
def tryNode (oracle : String → Nat → Option (List Nat)) (cid node : String)
    (retryCount : Nat) (st : SchedulerState) :
    Option (List Nat) × SchedulerState :=
  tryNodeFrom oracle cid node retryCount retryCount st

/-- The `while len(attempted_nodes) < len(available_replicas)` failover
loop of `ChunkScheduler.download_chunk`.  Every exit path (loop condition
false, empty remainder, or `select_best_node` returning nothing) increments
`failed_downloads` and returns `None`; exhausting a node's retries
increments `failover_count` and recurses over the remaining replicas.
`fuel` only bounds the recursion; `download_chunk` supplies enough for the
loop to reach its Python exit condition. -/
def downloadLoop (env : SchedulerEnv)
    (oracle : String → Nat → Option (List Nat)) (cid : String)
    (replicas : List String) :
    Nat → List String → SchedulerState → Option (List Nat) × SchedulerState
  | 0, _, st => (none, { st with failedDownloads := st.failedDownloads + 1 })
  | fuel + 1, attempted, st =>
      if attempted.length < replicas.length then
        let remaining := replicas.filter (fun n => decide (n ∉ attempted))
        if remaining.isEmpty then
          (none, { st with failedDownloads := st.failedDownloads + 1 })
        else
          match select_best_node env st remaining with
          | none => (none, { st with failedDownloads := st.failedDownloads + 1 })
          | some node =>
              let tr := tryNode oracle cid node env.maxRetries st
              match tr.1 with
              | some bytes => (some bytes, tr.2)
              | none =>
                  downloadLoop env oracle cid replicas fuel
                    (attempted ++ [node])
                    { tr.2 with failoverCount := tr.2.failoverCount + 1 }
      else (none, { st with failedDownloads := st.failedDownloads + 1 })

/-- `ChunkScheduler.download_chunk(chunk_id, available_replicas)`. -/
def download_chunk (env : SchedulerEnv)
    (oracle : String → Nat → Option (List Nat)) (cid : String)
    (replicas : List String) (st : SchedulerState) :
    Option (List Nat) × SchedulerState :=
  downloadLoop env oracle cid replicas (replicas.length + 1) [] st

theorem tryNodeFrom_counters (oracle : String → Nat → Option (List Nat))
    (cid node : String) (retry : Nat) :
    ∀ (r : Nat) (st : SchedulerState),
    (tryNodeFrom oracle cid node retry r st).2.failedDownloads =
        st.failedDownloads ∧
    (tryNodeFrom oracle cid node retry r st).2.failoverCount =
        st.failoverCount ∧
    (tryNodeFrom oracle cid node retry r st).2.nodeLoad = st.nodeLoad
  | 0, st => ⟨rfl, rfl, rfl⟩
  | r + 1, st => by
      simp only [tryNodeFrom]
      rcases ho : oracle node (retry - (r + 1)) with _ | bytes
      · simp only [ho]
        by_cases h : retry - (r + 1) < retry - 1
        · rw [if_pos h]
          exact tryNodeFrom_counters oracle cid node retry r _
        · rw [if_neg h]
          exact ⟨rfl, rfl, rfl⟩
      · simp only [ho]
        exact ⟨rfl, rfl, rfl⟩

theorem tryNodeFrom_allfail (oracle : String → Nat → Option (List Nat))
    (cid node : String) (retry : Nat)
    (hfail : ∀ i, i < retry → oracle node i = none) :
    ∀ (r : Nat) (st : SchedulerState), r ≤ retry →
    tryNodeFrom oracle cid node retry r st =
      (none, { st with sleeps := st.sleeps ++ (List.range' (retry - r) (r - 1)).map (fun i => (0.5 : ℚ) * 2 ^ i) })
  | 0, st, _ => by simp [tryNodeFrom]
  | r + 1, st, hr => by
      have hattempt : retry - (r + 1) < retry := by omega
      simp only [tryNodeFrom, hfail _ hattempt]
      by_cases h : retry - (r + 1) < retry - 1
      · have hr1 : 1 ≤ r := by omega
        obtain ⟨r2, rfl⟩ : ∃ r2, r = r2 + 1 := ⟨r - 1, by omega⟩
        rw [if_pos h]
        rw [tryNodeFrom_allfail oracle cid node retry hfail (r2 + 1) _
          (by omega)]
        have h1 : retry - (r2 + 1) = retry - (r2 + 1 + 1) + 1 := by omega
        simp only [Nat.add_sub_cancel]
        rw [List.range'_succ, h1]
        simp
      · rw [if_neg h]
        have h0 : r = 0 := by omega
        subst h0
        simp

theorem tryNodeFrom_success (oracle : String → Nat → Option (List Nat))
    (cid node : String) (retry : Nat) :
    ∀ (r : Nat) (st : SchedulerState) (k : Nat) (bytes : List Nat),
    r ≤ retry → retry - r ≤ k → k < retry →
    (∀ i, retry - r ≤ i → i < k → oracle node i = none) →
    oracle node k = some bytes →
    tryNodeFrom oracle cid node retry r st =
      (some bytes, recordSuccess cid node { st with sleeps := st.sleeps ++ (List.range' (retry - r) (k - (retry - r))).map (fun i => (0.5 : ℚ) * 2 ^ i) })
  | 0, st, k, bytes, hr, hk1, hk2, hnone, hsucc => by omega
  | r + 1, st, k, bytes, hr, hk1, hk2, hnone, hsucc => by
      by_cases hka : k = retry - (r + 1)
      · simp only [tryNodeFrom, ← hka, hsucc]
        simp [Nat.sub_self]
      · have hk3 : retry - (r + 1) < k := by omega
        simp only [tryNodeFrom,
          hnone (retry - (r + 1)) (le_refl _) hk3]
        have h : retry - (r + 1) < retry - 1 := by omega
        rw [if_pos h]
        rw [tryNodeFrom_success oracle cid node retry r _ k bytes
          (by omega) (by omega) hk2
          (fun i hi1 hi2 => hnone i (by omega) hi2) hsucc]
        obtain ⟨d, hd⟩ : ∃ d, k - (retry - (r + 1)) = d + 1 :=
          ⟨k - (retry - (r + 1)) - 1, by omega⟩
        have h1 : retry - r = retry - (r + 1) + 1 := by omega
        have h2 : k - (retry - r) = d := by omega
        rw [hd, h2, h1, List.range'_succ]
        simp

theorem schedPool_subset (env : SchedulerEnv) (l : List String) :
    ∀ n ∈ schedPool env l, n ∈ l := by
  intro n hn
  by_cases hh : (l.filter env.isNodeHealthy).isEmpty
  · simpa [schedPool, hh] using hn
  · simp only [schedPool, if_neg hh] at hn
    exact List.mem_of_mem_filter hn

theorem select_best_node_mem (env : SchedulerEnv) (st : SchedulerState)
    (l : List String) (node : String)
    (h : select_best_node env st l = some node) : node ∈ l := by
  unfold select_best_node at h
  by_cases he : l.isEmpty
  · rw [if_pos he] at h
    cases h
  · rw [if_neg he] at h
    rcases hp : schedPool env l with _ | ⟨b, rest⟩
    · rw [hp] at h
      cases h
    · rw [hp] at h
      have hb : node = pyMax (adjScore env st) b rest := by
        simpa using h.symm
      rw [hb]
      exact schedPool_subset env l _ (hp ▸ pyMax_mem _ rest b)

theorem length_filter_ne :
    ∀ (l : List String), l.Nodup → ∀ a ∈ l,
    (l.filter (fun n => decide (n ≠ a))).length + 1 = l.length
  | [], _, a, ha => by cases ha
  | x :: xs, hnd, a, ha => by
      rcases List.nodup_cons.1 hnd with ⟨hx, hnd'⟩
      rcases List.mem_cons.1 ha with he | ha'
      · subst he
        rw [List.filter_cons_of_neg (by simp)]
        rw [List.filter_eq_self.2 (fun n hn => by
          simp only [decide_eq_true_eq]
          intro hc
          exact hx (hc ▸ hn))]
        simp
      · have hax : x ≠ a := by
          intro he
          exact hx (he ▸ ha')
        rw [List.filter_cons_of_pos (by simpa using hax)]
        simp only [List.length_cons]
        rw [← length_filter_ne xs hnd' a ha']

theorem select_best_node_some (env : SchedulerEnv) (st : SchedulerState)
    (l : List String) (h : l ≠ []) :
    ∃ node, select_best_node env st l = some node ∧ node ∈ l := by
  have hpool : schedPool env l ≠ [] := by
    by_cases hh : (l.filter env.isNodeHealthy).isEmpty
    · simpa [schedPool, hh] using h
    · simp only [schedPool, if_neg hh]
      intro hc
      rw [hc] at hh
      exact hh rfl
  rcases hp : schedPool env l with _ | ⟨b, rest⟩
  · exact absurd hp hpool
  refine ⟨pyMax (adjScore env st) b rest, ?_, ?_⟩
  · unfold select_best_node
    rw [if_neg (by simpa using h), hp]
  · exact schedPool_subset env l _ (hp ▸ pyMax_mem _ rest b)

theorem filter_attempted_snoc (replicas attempted : List String)
    (node : String) :
    replicas.filter (fun n => decide (n ∉ attempted ++ [node])) =
      (replicas.filter (fun n => decide (n ∉ attempted))).filter
        (fun n => decide (n ≠ node)) := by
  rw [List.filter_filter]
  apply List.filter_congr
  intro a _
  simp [List.mem_append, not_or, Bool.and_comm]

theorem downloadLoop_failed (env : SchedulerEnv)
    (oracle : String → Nat → Option (List Nat)) (cid : String)
    (replicas : List String) :
    ∀ (fuel : Nat) (attempted : List String) (st : SchedulerState),
    ((downloadLoop env oracle cid replicas fuel attempted st).1 = none →
      (downloadLoop env oracle cid replicas fuel attempted st).2.failedDownloads
        = st.failedDownloads + 1) ∧
    (∀ bytes,
      (downloadLoop env oracle cid replicas fuel attempted st).1 = some bytes →
      (downloadLoop env oracle cid replicas fuel attempted st).2.failedDownloads
        = st.failedDownloads)
  | 0, attempted, st => ⟨fun _ => rfl, fun bytes h => by cases h⟩
  | fuel + 1, attempted, st => by
      simp only [downloadLoop]
      by_cases hc : attempted.length < replicas.length
      · rw [if_pos hc]
        by_cases hre :
            (replicas.filter (fun n => decide (n ∉ attempted))).isEmpty
        · rw [if_pos hre]
          exact ⟨fun _ => rfl, fun bytes h => by cases h⟩
        · rw [if_neg hre]
          rcases hsel : select_best_node env st
              (replicas.filter (fun n => decide (n ∉ attempted))) with _ | node
          · exact ⟨fun _ => rfl, fun bytes h => by cases h⟩
          · dsimp only
            rcases htr : tryNode oracle cid node env.maxRetries st with
              ⟨res, st2⟩
            have hcnt : st2.failedDownloads = st.failedDownloads := by
              have h0 := (tryNodeFrom_counters oracle cid node
                env.maxRetries env.maxRetries st).1
              rw [show tryNodeFrom oracle cid node env.maxRetries
                env.maxRetries st =
                tryNode oracle cid node env.maxRetries st from rfl, htr] at h0
              exact h0
            dsimp only
            rcases res with _ | bytes0
            · have hih := downloadLoop_failed env oracle cid replicas fuel
                (attempted ++ [node])
                { st2 with failoverCount := st2.failoverCount + 1 }
              constructor
              · intro hnone
                rw [hih.1 hnone]
                dsimp only
                rw [hcnt]
              · intro bytes h2
                rw [hih.2 bytes h2]
                dsimp only
                rw [hcnt]
            · exact ⟨fun h => Option.noConfusion h, fun bytes h => hcnt⟩
      · rw [if_neg hc]
        exact ⟨fun _ => rfl, fun bytes h => by cases h⟩

theorem downloadLoop_allfail (env : SchedulerEnv)
    (oracle : String → Nat → Option (List Nat)) (cid : String)
    (replicas : List String) (hnd : replicas.Nodup)
    (hfail : ∀ n i, oracle n i = none) :
    ∀ (fuel : Nat) (attempted : List String) (st : SchedulerState),
    (replicas.filter (fun n => decide (n ∉ attempted))).length < fuel →
    attempted.length +
      (replicas.filter (fun n => decide (n ∉ attempted))).length =
      replicas.length →
    downloadLoop env oracle cid replicas fuel attempted st =
      (none, { st with
        failedDownloads := st.failedDownloads + 1
        failoverCount := st.failoverCount +
          (replicas.filter (fun n => decide (n ∉ attempted))).length
        sleeps := st.sleeps ++ (List.replicate (replicas.filter (fun n => decide (n ∉ attempted))).length ((List.range (env.maxRetries - 1)).map (fun i => (0.5 : ℚ) * 2 ^ i))).flatten })
  | 0, attempted, st, hfuel, hinv => absurd hfuel (Nat.not_lt_zero _)
  | fuel + 1, attempted, st, hfuel, hinv => by
      by_cases hk : (replicas.filter (fun n => decide (n ∉ attempted))).length
          = 0
      · have hc : ¬ attempted.length < replicas.length := by omega
        simp only [downloadLoop, if_neg hc]
        rw [hk]
        simp
      · have hc : attempted.length < replicas.length := by omega
        simp only [downloadLoop, if_pos hc]
        have hne0 : replicas.filter (fun n => decide (n ∉ attempted)) ≠ [] := by
          intro hempty
          rw [hempty] at hk
          exact hk rfl
        have hre : (replicas.filter (fun n => decide (n ∉ attempted))).isEmpty
            = false := by
          rcases hfe : replicas.filter (fun n => decide (n ∉ attempted)) with
              _ | ⟨x, xs⟩
          · exact absurd hfe hne0
          · rfl
        rw [if_neg (by rw [hre]; exact Bool.false_ne_true)]
        obtain ⟨best, hsel, hmem⟩ := select_best_node_some env st
          (replicas.filter (fun n => decide (n ∉ attempted))) hne0
        rw [hsel]
        simp only
        have htr := tryNodeFrom_allfail oracle cid best env.maxRetries
          (fun i _ => hfail best i) env.maxRetries st (le_refl _)
        rw [show tryNode oracle cid best env.maxRetries st =
          tryNodeFrom oracle cid best env.maxRetries env.maxRetries st
          from rfl, htr]
        simp only [Nat.sub_self]
        have hLnd : (replicas.filter (fun n => decide (n ∉ attempted))).Nodup :=
          hnd.filter _
        have hL' := length_filter_ne
          (replicas.filter (fun n => decide (n ∉ attempted))) hLnd best hmem
        have hsnoc := filter_attempted_snoc replicas attempted best
        have hih := downloadLoop_allfail env oracle cid replicas hnd hfail
          fuel (attempted ++ [best])
          { nodeLoad := st.nodeLoad
            failoverCount := st.failoverCount + 1
            failedDownloads := st.failedDownloads
            totalDownloads := st.totalDownloads
            chunkSources := st.chunkSources
            sleeps := st.sleeps ++ (List.range' 0 (env.maxRetries - 1)).map (fun i => (0.5 : ℚ) * 2 ^ i) }
          (by rw [hsnoc]; omega)
          (by rw [hsnoc]; simp only [List.length_append, List.length_cons, List.length_nil]; omega)
        rw [hih]
        rw [hsnoc]
        obtain ⟨L1, hL1⟩ : ∃ L1,
            (replicas.filter (fun n => decide (n ∉ attempted))).length
              = L1 + 1 := ⟨_, hL'.symm⟩
        have hL1' : ((replicas.filter (fun n => decide (n ∉ attempted))).filter
            (fun n => decide (n ≠ best))).length = L1 := by omega
        rw [hL1, hL1']
        simp [List.replicate_succ, List.range_eq_range']
        omega

/-- Claim C7: per selected node, `download_chunk` makes up to `maxRetries`
download attempts with exponential backoff sleeps `0.5 * 2 ** attempt`
between consecutive attempts (returning the bytes as soon as an attempt
succeeds and recording the chunk's source); whenever the download returns
`None` the scheduler has incremented `failed_downloads` by exactly one, and
a successful download leaves it unchanged; and when every attempt against
every node fails, each of the (distinct) replicas is tried and exhausted in
turn, `failover_count` grows by the number of replicas, and the result is
`None`. -/
theorem download_retry_failover (env : SchedulerEnv)
    (oracle : String → Nat → Option (List Nat)) (cid : String)
    (replicas : List String) (st : SchedulerState) :
    (∀ (node : String) (k : Nat) (bytes : List Nat), k < env.maxRetries →
      (∀ i, i < k → oracle node i = none) → oracle node k = some bytes →
      tryNode oracle cid node env.maxRetries st =
        (some bytes, recordSuccess cid node { st with sleeps := st.sleeps ++ (List.range k).map (fun i => (0.5 : ℚ) * 2 ^ i) })) ∧
    (∀ node : String, (∀ i, i < env.maxRetries → oracle node i = none) →
      tryNode oracle cid node env.maxRetries st =
        (none, { st with sleeps := st.sleeps ++ (List.range (env.maxRetries - 1)).map (fun i => (0.5 : ℚ) * 2 ^ i) })) ∧
    ((download_chunk env oracle cid replicas st).1 = none →
      (download_chunk env oracle cid replicas st).2.failedDownloads =
        st.failedDownloads + 1) ∧
    (∀ bytes, (download_chunk env oracle cid replicas st).1 = some bytes →
      (download_chunk env oracle cid replicas st).2.failedDownloads =
        st.failedDownloads) ∧
    (replicas.Nodup → (∀ n i, oracle n i = none) →
      download_chunk env oracle cid replicas st =
        (none, { st with
          failedDownloads := st.failedDownloads + 1
          failoverCount := st.failoverCount + replicas.length
          sleeps := st.sleeps ++ (List.replicate replicas.length ((List.range (env.maxRetries - 1)).map (fun i => (0.5 : ℚ) * 2 ^ i))).flatten })) := by
  refine ⟨?_, ?_, ?_, ?_, ?_⟩
  · intro node k bytes hk hnone hsucc
    have h := tryNodeFrom_success oracle cid node env.maxRetries
      env.maxRetries st k bytes (le_refl _) (by omega) hk
      (fun i _ hi2 => hnone i hi2) hsucc
    rw [show tryNode oracle cid node env.maxRetries st =
      tryNodeFrom oracle cid node env.maxRetries env.maxRetries st
      from rfl, h]
    simp [Nat.sub_self, List.range_eq_range']
  · intro node hnone
    have h := tryNodeFrom_allfail oracle cid node env.maxRetries hnone
      env.maxRetries st (le_refl _)
    rw [show tryNode oracle cid node env.maxRetries st =
      tryNodeFrom oracle cid node env.maxRetries env.maxRetries st
      from rfl, h]
    simp [Nat.sub_self, List.range_eq_range']
  · exact (downloadLoop_failed env oracle cid replicas
      (replicas.length + 1) [] st).1
  · exact (downloadLoop_failed env oracle cid replicas
      (replicas.length + 1) [] st).2
  · intro hnd hfail
    have hfe : replicas.filter (fun n => decide (n ∉ ([] : List String)))
        = replicas :=
      List.filter_eq_self.2 (fun a _ => by simp)
    have h := downloadLoop_allfail env oracle cid replicas hnd hfail
      (replicas.length + 1) [] st (by rw [hfe]; omega) (by rw [hfe]; simp)
    rw [hfe] at h
    exact h

/-- The always-failing download oracle. -/
def oracleFailW : String → Nat → Option (List Nat) := fun _ _ => none

/-- Claim C7 (witness): with two distinct replicas and every attempt
failing, the download returns nothing, `failed_downloads` grows by one,
`failover_count` by two, and two backoff sleeps are recorded per node. -/
theorem download_retry_failover_witness :
    download_chunk envW oracleFailW "c1" ["n1", "n2"] SchedulerState.init =
      (none, { SchedulerState.init with
        failedDownloads := SchedulerState.init.failedDownloads + 1
        failoverCount := SchedulerState.init.failoverCount +
          (["n1", "n2"] : List String).length
        sleeps := SchedulerState.init.sleeps ++ (List.replicate (["n1", "n2"] : List String).length ((List.range (envW.maxRetries - 1)).map (fun i => (0.5 : ℚ) * 2 ^ i))).flatten }) :=
  (download_retry_failover envW oracleFailW "c1" ["n1", "n2"]
    SchedulerState.init).2.2.2.2 (by decide) (fun n i => rfl)

/-! ## ChunkPaxos (`consensus.py`)

Storage-node HTTP responses are oracles indexed by attempt number and node;
the SQLite tables are modelled with their primary keys (`INSERT OR REPLACE`
= delete the key's row, append the new one); the consensus phase is kept as
the string stored in the `phase` TEXT column; `asyncio.sleep` is a trace. -/

/-- A node's response to the prepare probe
(`HEAD /chunk/{id}` + `X-Ballot-Number`). -/
inductive PrepResp
  | notFound
  | present (ballot : Nat)
  | busy
  | other
  | netError
  deriving DecidableEq, Repr

/-- `ChunkPaxos._send_prepare_request`: 404 → accept; 200 → compare
ballots (strictly higher ours → accept, strictly lower → raise
`BallotConflictException`, equal → accept); 409/other/exception → `False`. -/
def send_prepare_request (resp : PrepResp) (ballot : Nat) :
    Except String Bool :=
  match resp with
  | .notFound => .ok true
  | .present existing =>
      if existing < ballot then .ok true
      else if ballot < existing then .error "BallotConflict"
      else .ok true
  | .busy => .ok false
  | .other => .ok false
  | .netError => .ok false

/-- A row of `chunk_replicas` (PK `(chunk_id, node_url)`). -/
structure ReplicaRow where
  chunk_id : String
  node_url : String
  status : String
  ballot_number : Nat
  deriving DecidableEq, Repr

/-- A row of `chunks` minus its key (PK `chunk_id`). -/
structure ChunkRow where
  video_id : String
  sequence_num : Nat
  size_bytes : Nat
  checksum : String
  redundancy_mode : String
  deriving DecidableEq, Repr

/-- A row of `consensus_state` minus its key (PK `chunk_id`); `phase` is
the stored TEXT value (`"none"`, `"prepare"`, `"accept"`, `"committed"`). -/
structure ConsensusRow where
  promised_ballot : Nat
  accepted_ballot : Nat
  accepted_value : Option (List String)
  phase : String
  deriving DecidableEq, Repr

/-- One entry of `fragments_metadata`. -/
structure FragmentMeta where
  fragment_id : String
  chunk_id : String
  fragment_index : Nat
  node_url : String
  size_bytes : Nat
  checksum : String
  deriving DecidableEq, Repr

/-- The metadata tables touched by `ChunkPaxos`. -/
structure MetaDB where
  chunks : List (String × ChunkRow)
  chunk_replicas : List ReplicaRow
  chunk_fragments : List (FragmentMeta × String)
  consensus_state : String → Option ConsensusRow
  videos_total : String → Option Nat

/-- `INSERT OR REPLACE INTO chunks`. -/
def MetaDB.upsertChunk (db : MetaDB) (cid : String) (row : ChunkRow) :
    MetaDB :=
  { db with chunks := db.chunks.filter (fun p => decide (p.1 ≠ cid)) ++ [(cid, row)] }

/-- `INSERT OR REPLACE INTO chunk_replicas`. -/
def MetaDB.upsertReplica (db : MetaDB) (r : ReplicaRow) : MetaDB :=
  { db with chunk_replicas := db.chunk_replicas.filter (fun x => decide (¬ (x.chunk_id = r.chunk_id ∧ x.node_url = r.node_url))) ++ [r] }

/-- `INSERT OR REPLACE INTO chunk_fragments`. -/
def MetaDB.upsertFragment (db : MetaDB) (f : FragmentMeta)
    (status : String) : MetaDB :=
  { db with chunk_fragments := db.chunk_fragments.filter (fun x => decide (x.1.fragment_id ≠ f.fragment_id)) ++ [(f, status)] }

/-- `ChunkPaxos._update_consensus_state` (`INSERT OR REPLACE`, setting both
ballots to the given ballot). -/
def MetaDB.setConsensus (db : MetaDB) (cid : String) (ballot : Nat)
    (value : Option (List String)) (phase : String) : MetaDB :=
  { db with consensus_state := fun c =>
      if c = cid then some ⟨ballot, ballot, value, phase⟩
      else db.consensus_state c }

/-- The `UPDATE videos SET total_chunks = (SELECT COUNT(DISTINCT chunk_id)
...)` statement of the commit phase (an UPDATE touches only existing
rows; chunk keys are unique, so the count is a filter length). -/
def MetaDB.updateVideoTotal (db : MetaDB) (vid : String) : MetaDB :=
  { db with videos_total := fun v =>
      if v = vid then
        (db.videos_total v).map (fun _ =>
          (db.chunks.filter (fun p => decide (p.2.video_id = vid))).length)
      else db.videos_total v }

/-- `ChunkPaxos._commit_phase`: upsert the chunk row, then fragment rows
(ERASURE with non-empty metadata) or replica rows carrying the ballot,
update the video's chunk count, and mark consensus `"committed"`. -/
def commit_phase (db : MetaDB) (cid : String) (accepted : List String)
    (ballot : Nat) (checksum : String) (sizeBytes : Nat) (videoId : String)
    (seqNum : Nat) (mode : String) (frags : Option (List FragmentMeta)) :
    MetaDB :=
  let db1 := db.upsertChunk cid ⟨videoId, seqNum, sizeBytes, checksum, mode⟩
  let db2 :=
    match frags with
    | some fs =>
        if mode = "erasure_coding" ∧ ¬ fs.isEmpty then
          fs.foldl (fun (d : MetaDB) f => d.upsertFragment f "active") db1
        else
          accepted.foldl
            (fun (d : MetaDB) n =>
              d.upsertReplica ⟨cid, n, "active", ballot⟩) db1
    | none =>
        accepted.foldl
          (fun (d : MetaDB) n =>
            d.upsertReplica ⟨cid, n, "active", ballot⟩) db1
  let db3 := db2.updateVideoTotal videoId
  db3.setConsensus cid ballot (some accepted) "committed"

/-- `ChunkPaxos._cleanup_failed_consensus`: delete replica rows matching
`(chunk_id, ballot)` and reset the chunk's consensus row to phase
`"none"` with a NULL accepted value. -/
def cleanup_failed_consensus (db : MetaDB) (cid : String) (ballot : Nat) :
    MetaDB :=
  { db with
    chunk_replicas := db.chunk_replicas.filter
      (fun r => decide (¬ (r.chunk_id = cid ∧ r.ballot_number = ballot)))
    consensus_state := fun c =>
      if c = cid then
        (db.consensus_state c).map
          (fun r => { r with phase := "none", accepted_value := none })
      else db.consensus_state c }

/-- Mutable state of one `ChunkPaxos` proposer plus the traces we observe:
its `ballot_counter`, the database, the sleeps, and the prepare/accept
RPC batches that were sent (ballot, nodes). -/
structure PaxosState where
  ballotCounter : Nat
  db : MetaDB
  sleeps : List ℚ
  prepareCalls : List (Nat × List String)
  acceptCalls : List (Nat × List String)

/-- One `_generate_ballot_number` call on the proposer state; `ts` maps the
index of the generator call to the millisecond timestamp it observes. -/
def genBallot (ts : Nat → Nat) (st : PaxosState) : Nat × PaxosState :=
  let r := generateBallotNumber (ts st.ballotCounter) st.ballotCounter
  (r.1, { st with ballotCounter := r.2 })

/-- `ChunkPaxos._prepare_phase`: persist `(ballot, PREPARE)`, probe every
node, and keep those answering `True`.  `asyncio.gather(...,
return_exceptions=True)` captures a raised `BallotConflictException` in the
results list, and the collection loop only logs it — so a conflict merely
drops that node from the successful set. -/
def prepare_phase (resps : String → PrepResp) (cid : String)
    (nodes : List String) (ballot : Nat) (st : PaxosState) :
    List String × PaxosState :=
  let st1 := { st with
    db := st.db.setConsensus cid ballot none "prepare"
    prepareCalls := st.prepareCalls ++ [(ballot, nodes)] }
  (nodes.filter (fun n =>
    match send_prepare_request (resps n) ballot with
    | .ok true => true
    | _ => false), st1)

/-- `ChunkPaxos._accept_phase`: persist `(ballot, ACCEPT, nodes)`, send the
accept probe to every prepared node, keep those whose chunk exists with the
expected checksum (`acceptOk`). -/
def accept_phase (acceptOk : String → Bool) (cid : String)
    (prepared : List String) (ballot : Nat) (st : PaxosState) :
    List String × PaxosState :=
  let st1 := { st with
    db := st.db.setConsensus cid ballot (some prepared) "accept"
    acceptCalls := st.acceptCalls ++ [(ballot, prepared)] }
  (prepared.filter acceptOk, st1)

/-- The attempt loop of `propose_chunk_placement` (`max_retries = 3`).
`remaining` counts the attempts left including the current one, `attempt`
is the 0-based index; a failed non-final attempt sleeps `1.0 * 2 **
attempt` and regenerates the ballot, a failed final attempt runs cleanup
under the current ballot and returns `(False, [])`. -/
def proposeLoop (ts : Nat → Nat) (prepResps : Nat → String → PrepResp)
    (acceptOk : Nat → String → Bool) (cid : String) (nodes : List String)
    (quorum : Nat) (checksum : String) (sizeBytes : Nat) (videoId : String)
    (seqNum : Nat) (mode : String) (frags : Option (List FragmentMeta)) :
    Nat → Nat → Nat → PaxosState → (Bool × List String) × PaxosState
  | 0, _, _, st => ((false, []), st)
  | remaining + 1, attempt, ballot, st =>
      let pr := prepare_phase (prepResps attempt) cid nodes ballot st
      if pr.1.length < quorum then
        if remaining = 0 then
          ((false, []),
            { pr.2 with db := cleanup_failed_consensus pr.2.db cid ballot })
        else
          let st2 := { pr.2 with
            sleeps := pr.2.sleeps ++ [(1 : ℚ) * 2 ^ attempt] }
          let g := genBallot ts st2
          proposeLoop ts prepResps acceptOk cid nodes quorum checksum
            sizeBytes videoId seqNum mode frags remaining (attempt + 1)
            g.1 g.2
      else
        let ac := accept_phase (acceptOk attempt) cid pr.1 ballot pr.2
        if ac.1.length < quorum then
          if remaining = 0 then
            ((false, []),
              { ac.2 with db := cleanup_failed_consensus ac.2.db cid ballot })
          else
            let st2 := { ac.2 with
              sleeps := ac.2.sleeps ++ [(1 : ℚ) * 2 ^ attempt] }
            let g := genBallot ts st2
            proposeLoop ts prepResps acceptOk cid nodes quorum checksum
              sizeBytes videoId seqNum mode frags remaining (attempt + 1)
              g.1 g.2
        else
          ((true, ac.1),
            { ac.2 with db := commit_phase ac.2.db cid ac.1 ballot checksum sizeBytes videoId seqNum mode frags })

/-- `ChunkPaxos.propose_chunk_placement`: reject an empty node list
(`ValueError`), compute `quorum = len // 2 + 1`, generate the first ballot
and run up to 3 attempts. -/
def propose_chunk_placement (ts : Nat → Nat)
    (prepResps : Nat → String → PrepResp)
    (acceptOk : Nat → String → Bool) (cid : String) (nodes : List String)
    (checksum : String) (sizeBytes : Nat) (videoId : String) (seqNum : Nat)
    (mode : String) (frags : Option (List FragmentMeta)) (st : PaxosState) :
    Except String ((Bool × List String) × PaxosState) :=
  if nodes.length < 1 then
    .error "At least one node required for consensus"
  else
    let quorum := nodes.length / 2 + 1
    let g := genBallot ts st
    .ok (proposeLoop ts prepResps acceptOk cid nodes quorum checksum
      sizeBytes videoId seqNum mode frags 3 0 g.1 g.2)

/-- The empty database. -/
def MetaDB.init : MetaDB :=
  { chunks := []
    chunk_replicas := []
    chunk_fragments := []
    consensus_state := fun _ => none
    videos_total := fun _ => none }

/-- A fresh proposer over an empty database. -/
def PaxosState.init : PaxosState :=
  { ballotCounter := 0
    db := MetaDB.init
    sleeps := []
    prepareCalls := []
    acceptCalls := [] }

/-- Prepare responses where node n1 holds the chunk under ballot 99 (higher
than the proposer's first ballot, which is 1) and the others answer 404. -/
def prepRespsW : Nat → String → PrepResp :=
  fun _ n => if n = "n1" then .present 99 else .notFound

/-- Claim C2 (evaluation at the failing input): proposer ballot 1; node n1
reports the chunk present under the strictly greater ballot 99; nodes n2
and n3 answer 404.  The gathered `BallotConflictException` is swallowed, so
the attempt is not aborted: an Accept-phase batch is issued under ballot 1
to the other two nodes and the proposal even commits. -/
theorem ballot_conflict_not_aborted :
    prepRespsW 0 "n1" = PrepResp.present 99 ∧
    (propose_chunk_placement (fun _ => 0) prepRespsW (fun _ _ => true) "c"
        ["n1", "n2", "n3"] "sum" 10 "v" 0 "replication" none
        PaxosState.init).map (fun r => (r.1, r.2.acceptCalls)) =
      Except.ok ((true, ["n2", "n3"]), [(1, ["n2", "n3"])]) :=
  ⟨rfl, by rfl⟩

/-- The `i`-th ballot generated by a proposer whose counter currently reads
`c0`, with timestamps drawn from `ts`. -/
def ballotFrom (ts : Nat → Nat) (c0 i : Nat) : Nat :=
  (generateBallotNumber (ts (c0 + i)) (c0 + i)).1

/-- Claim C9: when every prepare probe of every attempt answers busy (so no
attempt reaches quorum), `propose_chunk_placement` makes exactly 3
attempts, each under a freshly generated ballot, sleeping `1 * 2 ** 0` and
`1 * 2 ** 1` seconds between them; no Accept batch is ever sent; and after
the last attempt it deletes exactly the replica rows matching `(chunk_id,
last ballot)`, resets the chunk's consensus phase to `"none"`, commits no
chunk row, and returns `(False, [])`. -/
theorem consensus_failure_path (ts : Nat → Nat)
    (prepResps : Nat → String → PrepResp) (acceptOk : Nat → String → Bool)
    (cid : String) (nodes : List String) (checksum : String)
    (sizeBytes : Nat) (videoId : String) (seqNum : Nat) (mode : String)
    (frags : Option (List FragmentMeta)) (st : PaxosState)
    (hne : nodes ≠ []) (hbusy : ∀ a n, prepResps a n = PrepResp.busy) :
    ∃ stf, propose_chunk_placement ts prepResps acceptOk cid nodes checksum
        sizeBytes videoId seqNum mode frags st =
          Except.ok ((false, []), stf) ∧
      stf.ballotCounter = st.ballotCounter + 3 ∧
      stf.sleeps = st.sleeps ++ [(1 : ℚ) * 2 ^ 0, (1 : ℚ) * 2 ^ 1] ∧
      stf.prepareCalls = st.prepareCalls ++
        [(ballotFrom ts st.ballotCounter 0, nodes),
         (ballotFrom ts st.ballotCounter 1, nodes),
         (ballotFrom ts st.ballotCounter 2, nodes)] ∧
      stf.acceptCalls = st.acceptCalls ∧
      stf.db.chunk_replicas = st.db.chunk_replicas.filter (fun r => decide (¬ (r.chunk_id = cid ∧ r.ballot_number = ballotFrom ts st.ballotCounter 2))) ∧
      (stf.db.consensus_state cid).map (fun r => r.phase) = some "none" ∧
      stf.db.chunks = st.db.chunks := by
  have hlen : ¬ nodes.length < 1 := by
    cases nodes with
    | nil => exact absurd rfl hne
    | cons x xs => simp
  have hq : ([] : List String).length < nodes.length / 2 + 1 :=
    Nat.succ_pos _
  have hprep : ∀ (a ballot : Nat) (st' : PaxosState),
      prepare_phase (prepResps a) cid nodes ballot st' =
        ([], { st' with
          db := st'.db.setConsensus cid ballot none "prepare"
          prepareCalls := st'.prepareCalls ++ [(ballot, nodes)] }) := by
    intro a ballot st'
    unfold prepare_phase
    rw [List.filter_eq_nil_iff.2 (fun n _ => by
      rw [hbusy a n]
      simp [send_prepare_request])]
  unfold propose_chunk_placement
  rw [if_neg hlen]
  simp only [proposeLoop, hprep, genBallot, generateBallotNumber]
  simp only [hq, if_true, if_neg (show ¬ (2 = 0) from by decide),
    if_neg (show ¬ (1 = 0) from by decide)]
  refine ⟨_, rfl, ?_, ?_, ?_, ?_, ?_, ?_, ?_⟩
  · simp
  · simp
  · simp [ballotFrom, generateBallotNumber]
  · simp
  · simp [cleanup_failed_consensus, MetaDB.setConsensus, ballotFrom,
      generateBallotNumber]
  · simp [cleanup_failed_consensus, MetaDB.setConsensus]
  · simp [cleanup_failed_consensus, MetaDB.setConsensus]

/-- Claim C9 (witness): the failure path evaluated with three
always-busy nodes from a fresh proposer. -/
theorem consensus_failure_path_witness :
    ∃ stf, propose_chunk_placement (fun _ => 7) (fun _ _ => PrepResp.busy)
        (fun _ _ => true) "c" ["n1", "n2", "n3"] "sum" 10 "v" 0
        "replication" none PaxosState.init =
          Except.ok ((false, []), stf) ∧
      stf.ballotCounter = PaxosState.init.ballotCounter + 3 ∧
      stf.sleeps = PaxosState.init.sleeps ++ [(1 : ℚ) * 2 ^ 0, (1 : ℚ) * 2 ^ 1] ∧
      stf.prepareCalls = PaxosState.init.prepareCalls ++
        [(ballotFrom (fun _ => 7) PaxosState.init.ballotCounter 0,
            ["n1", "n2", "n3"]),
         (ballotFrom (fun _ => 7) PaxosState.init.ballotCounter 1,
            ["n1", "n2", "n3"]),
         (ballotFrom (fun _ => 7) PaxosState.init.ballotCounter 2,
            ["n1", "n2", "n3"])] ∧
      stf.acceptCalls = PaxosState.init.acceptCalls ∧
      stf.db.chunk_replicas = PaxosState.init.db.chunk_replicas.filter (fun r => decide (¬ (r.chunk_id = "c" ∧ r.ballot_number = ballotFrom (fun _ => 7) PaxosState.init.ballotCounter 2))) ∧
      (stf.db.consensus_state "c").map (fun r => r.phase) = some "none" ∧
      stf.db.chunks = PaxosState.init.db.chunks :=
  consensus_failure_path (fun _ => 7) (fun _ _ => PrepResp.busy)
    (fun _ _ => true) "c" ["n1", "n2", "n3"] "sum" 10 "v" 0 "replication"
    none PaxosState.init (by decide) (fun _ _ => rfl)

/-! ## Erasure coding (`erasure_coding.py`)

The per-byte-position Reed-Solomon codec is the external `reedsolo`
library, not part of this repository.  Modelled from the spec: §4.7 calls
for an `(K+M, K)` Reed-Solomon code over the symbol alphabet that is
systematic (the first `K` symbols of a codeword are the message) and
recovers the message from a codeword whose erased positions (at most `M`,
at known indices, zero-filled — exactly the shape `decode_fragments` hands
to the codec) are marked.  The codec is therefore a parameter `enc`/`dec`
together with the two correctness predicates below; symbols are a type
with a zero (Python bytes instantiate it with values 0..255). -/

/-- An `ErasureCoder(data_shards, parity_shards)` instance together with
its per-column codec (`self.codec.encode` / `self.codec.decode`). -/
structure ErasureCoder (α : Type) where
  data_shards : Nat
  parity_shards : Nat
  enc : List α → List α
  dec : List α → List Nat → List α

/-- `self.total_shards`. -/
def ErasureCoder.total_shards {α : Type} (c : ErasureCoder α) : Nat :=
  c.data_shards + c.parity_shards

/-- A codeword with the positions in `E` zeroed out — the `available_bytes`
vector that `decode_fragments` builds for the codec. -/
def eraseWord {α : Type} [Zero α] (w : List α) (E : List Nat) : List α :=
  (List.range w.length).map (fun j => if j ∈ E then 0 else w.getD j 0)

/-- Modelled from the spec: the codec is systematic — encoding a
`data_shards`-symbol message yields a `total_shards`-symbol codeword whose
first `data_shards` symbols are the message itself (`erasure_coding.py`
reads the parity bytes at positions `data_shards + parity_idx`, and the
spec's decode fast path returns the data fragments verbatim). -/
def ErasureCoder.SystematicEnc {α : Type} (c : ErasureCoder α) : Prop :=
  ∀ msg : List α, msg.length = c.data_shards →
    (c.enc msg).length = c.data_shards + c.parity_shards ∧
    (c.enc msg).take c.data_shards = msg

/-- Modelled from the spec: decoding a codeword with at most
`parity_shards` erased positions (zero-filled, indices passed as
`erase_pos`) returns the original message. -/
def ErasureCoder.RecoversErasures {α : Type} [Zero α] (c : ErasureCoder α) :
    Prop :=
  ∀ msg : List α, msg.length = c.data_shards →
  ∀ E : List Nat, E.Nodup →
    (∀ j ∈ E, j < c.data_shards + c.parity_shards) →
    E.length ≤ c.parity_shards →
    c.dec (eraseWord (c.enc msg) E) E = msg

/-- `ErasureCoder.encode_chunk`: reject empty input (`ValueError`), pad
with zeros to a multiple of `data_shards`, split into `data_shards` data
fragments, and for every byte position feed the column of data bytes to the
codec and take the parity symbols at positions `data_shards + parity_idx`. -/
def encode_chunk {α : Type} [Zero α] (c : ErasureCoder α)
    (chunkData : List α) : Option (List (List α)) :=
  if chunkData.isEmpty then none
  else
    let chunkSize := chunkData.length
    let fragmentSize := (chunkSize + c.data_shards - 1) / c.data_shards
    let padded := chunkData ++
      List.replicate (fragmentSize * c.data_shards - chunkSize) 0
    let dataFragments := (List.range c.data_shards).map
      (fun i => (padded.drop (i * fragmentSize)).take fragmentSize)
    let parityFragments := (List.range c.parity_shards).map (fun parityIdx =>
      (List.range fragmentSize).map (fun bytePos =>
        (c.enc ((List.range c.data_shards).map
          (fun i => (dataFragments.getD i []).getD bytePos 0))).getD
          (c.data_shards + parityIdx) 0))
    some (dataFragments ++ parityFragments)

/-- The `fragment_map` dict of `decode_fragments`, built by
`for idx, frag in zip(fragment_indices, available_fragments)` — on a
duplicate index the later pair wins, hence the reversed lookup. -/
def fragMapOf {α : Type} (pairs : List (Nat × List α)) (i : Nat) :
    Option (List α) :=
  (pairs.reverse.find? (fun p => p.1 == i)).map (fun p => p.2)

/-- `ErasureCoder.decode_fragments(fragments, fragment_indices)`: fail with
`"Insufficient fragments"` below `data_shards` available fragments; if all
data indices are present concatenate them; otherwise reconstruct each
missing data fragment byte position by byte position, feeding the codec the
zero-filled `total_shards`-wide column with the missing indices as
erasures, and concatenate.  No truncation to the original length happens
here. -/
def decode_fragments {α : Type} [Zero α] (c : ErasureCoder α)
    (fragments : List (Option (List α))) (fragmentIndices : List Nat) :
    Except String (List α) :=
  let available := fragments.filterMap id
  if available.length < c.data_shards then .error "Insufficient fragments"
  else
    let fragmentSize := (available.headD []).length
    let fragMap := fragMapOf (fragmentIndices.zip available)
    if (List.range c.data_shards).all (fun i => (fragMap i).isSome) then
      .ok (((List.range c.data_shards).map
        (fun i => (fragMap i).getD [])).flatten)
    else
      .ok (((List.range c.data_shards).map (fun dataIdx =>
        (fragMap dataIdx).getD
          ((List.range fragmentSize).map (fun bytePos =>
            let availableBytes := (List.range c.total_shards).map
              (fun fragIdx => ((fragMap fragIdx).getD []).getD bytePos 0)
            let erasures := (List.range c.total_shards).filter
              (fun fragIdx => (fragMap fragIdx).isNone)
            (c.dec availableBytes erasures).getD dataIdx 0)))).flatten)

theorem flatten_chunks {α : Type} :
    ∀ (K : Nat) (l : List α) (fs : Nat), l.length = K * fs →
    ((List.range K).map (fun i => (l.drop (i * fs)).take fs)).flatten = l
  | 0, l, fs, h => by
      rw [Nat.zero_mul] at h
      rw [List.length_eq_zero.1 h]
      simp
  | K + 1, l, fs, h => by
      have hlen : (l.drop fs).length = K * fs := by
        rw [List.length_drop]
        have h' : l.length = K * fs + fs := by rw [h]; ring
        omega
      have hIH := flatten_chunks K (l.drop fs) fs hlen
      rw [List.range_succ_eq_map, List.map_cons, List.map_map,
        List.flatten_cons]
      have hmap : (List.range K).map
          ((fun i => (l.drop (i * fs)).take fs) ∘ Nat.succ) =
          (List.range K).map
            (fun i => ((l.drop fs).drop (i * fs)).take fs) := by
        apply List.map_congr_left
        intro i _
        simp only [Function.comp]
        rw [List.drop_drop]
        have : Nat.succ i * fs = fs + i * fs := by
          rw [Nat.succ_mul]; ring
        rw [this]
      rw [hmap, hIH]
      simp [Nat.zero_mul]

theorem map_getD_self {α : Type} (z : α) (L : List α) :
    (List.range L.length).map (fun p => L.getD p z) = L := by
  apply List.ext_getElem
  · simp
  · intro i h1 h2
    simp only [List.getElem_map, List.getElem_range]
    rw [List.getD_eq_getElem]

theorem find_rev_map {β : Type} (g : Nat → β) :
    ∀ (sel : List Nat), sel.Nodup → ∀ i : Nat,
    ((sel.map (fun j => (j, g j))).reverse).find? (fun p => p.1 == i) =
      if i ∈ sel then some (i, g i) else none
  | [], _, i => by simp
  | x :: xs, hnd, i => by
      rcases List.nodup_cons.1 hnd with ⟨hx, hnd'⟩
      simp only [List.map_cons, List.reverse_cons]
      rw [List.find?_append, find_rev_map g xs hnd' i]
      by_cases hmem : i ∈ xs
      · have hne : i ≠ x := fun he => hx (he ▸ hmem)
        simp [hmem]
      · rw [if_neg hmem]
        by_cases hxi : i = x
        · subst hxi
          simp
        · simp only [Option.none_or, List.find?_cons, List.find?_nil]
          have : (x == i) = false := by
            simp [Ne.symm hxi]
          simp [this, List.mem_cons, hxi, hmem]

theorem fragMapOf_eq {α : Type} (g : Nat → List α) (sel : List Nat)
    (hnd : sel.Nodup) (i : Nat) :
    fragMapOf (sel.zip (sel.map g)) i =
      if i ∈ sel then some (g i) else none := by
  have hz : ∀ l : List Nat, l.zip (l.map g) = l.map (fun j => (j, g j)) := by
    intro l
    induction l with
    | nil => rfl
    | cons x xs ih => simp only [List.map_cons, List.zip_cons_cons, ih]
  unfold fragMapOf
  rw [hz sel, find_rev_map g sel hnd i]
  by_cases hmem : i ∈ sel <;> simp [hmem]

theorem length_filter_not_mem (N : Nat) (sel : List Nat)
    (hnd : sel.Nodup) (hlt : ∀ i ∈ sel, i < N) :
    ((List.range N).filter (fun j => decide (j ∉ sel))).length + sel.length
      = N := by
  have hperm : ((List.range N).filter (fun j => decide (j ∈ sel))).Perm sel := by
    apply (List.perm_ext_iff_of_nodup ((List.nodup_range N).filter _) hnd).2
    intro a
    simp only [List.mem_filter, List.mem_range, decide_eq_true_eq]
    constructor
    · exact fun h => h.2
    · exact fun h => ⟨hlt a h, h⟩
  have hlen := hperm.length_eq
  have hsplit := List.length_eq_countP_add_countP
    (fun j => decide (j ∈ sel)) (List.range N)
  rw [List.countP_eq_length_filter, List.countP_eq_length_filter] at hsplit
  rw [List.length_range] at hsplit
  have hcong : (List.range N).filter (fun a => decide ¬(fun j =>
      decide (j ∈ sel)) a = true) = (List.range N).filter
      (fun j => decide (j ∉ sel)) := by
    apply List.filter_congr
    intro a _
    simp
  rw [hcong] at hsplit
  omega

theorem getD_map_range {β : Type} (f : Nat → β) {n i : Nat} (d : β)
    (h : i < n) : ((List.range n).map f).getD i d = f i := by
  have hl : i < ((List.range n).map f).length := by simpa using h
  rw [List.getD_eq_getElem _ _ hl]
  simp

theorem getD_take_of_lt {β : Type} (l : List β) (k i : Nat) (d : β)
    (h : i < k) : (l.take k).getD i d = l.getD i d := by
  rw [List.getD_eq_getElem?_getD, List.getD_eq_getElem?_getD,
    List.getElem?_take, if_pos h]

/-- Shape of a successful `encode_chunk`: the fragment size is positive,
the padded length is a multiple of `data_shards`, there are
`total_shards` fragments of equal length, every fragment byte agrees with
the codec codeword of its column, and the data fragments concatenate to
the padded chunk. -/
theorem encode_chunk_spec {α : Type} [Zero α] (c : ErasureCoder α)
    (hK : 0 < c.data_shards) (hsys : c.SystematicEnc)
    (chunk : List α) (hne : chunk ≠ [])
    (frags : List (List α)) (henc : encode_chunk c chunk = some frags) :
    0 < (chunk.length + c.data_shards - 1) / c.data_shards ∧
    chunk.length ≤
      ((chunk.length + c.data_shards - 1) / c.data_shards) * c.data_shards ∧
    frags.length = c.total_shards ∧
    (∀ j, j < c.total_shards → (frags.getD j []).length =
      (chunk.length + c.data_shards - 1) / c.data_shards) ∧
    (∀ j, j < c.total_shards →
      ∀ p, p < (chunk.length + c.data_shards - 1) / c.data_shards →
        (frags.getD j []).getD p 0 =
          (c.enc ((List.range c.data_shards).map
            (fun i => (frags.getD i []).getD p 0))).getD j 0) ∧
    ((List.range c.data_shards).map (fun i => frags.getD i [])).flatten =
      chunk ++ List.replicate
        (((chunk.length + c.data_shards - 1) / c.data_shards) *
          c.data_shards - chunk.length) 0 := by
  have hne' : chunk.isEmpty = false := by
    cases chunk with
    | nil => exact absurd rfl hne
    | cons a l => rfl
  simp only [encode_chunk, hne', Bool.false_eq_true, if_false,
    Option.some.injEq] at henc
  subst henc
  set K := c.data_shards with hKdef
  set M := c.parity_shards with hMdef
  set n := chunk.length with hndef
  set fs := (n + K - 1) / K with hfsdef
  set padded := chunk ++ List.replicate (fs * K - n) 0 with hpaddef
  set dataFrags := (List.range K).map
    (fun i => (padded.drop (i * fs)).take fs) with hDFdef
  set parityFrags := (List.range M).map (fun parityIdx =>
    (List.range fs).map (fun bytePos =>
      (c.enc ((List.range K).map
        (fun i => (dataFrags.getD i []).getD bytePos 0))).getD
        (K + parityIdx) 0)) with hPFdef
  have hn1 : 1 ≤ n := by
    rw [hndef]
    exact List.length_pos.2 hne
  have hfs1 : 0 < fs := by
    rw [hfsdef]
    exact Nat.div_pos (by omega) hK
  have hnle : n ≤ fs * K := by
    have h1 := Nat.div_add_mod (n + K - 1) K
    have h2 : (n + K - 1) % K < K := Nat.mod_lt _ hK
    have h3 : fs * K = K * ((n + K - 1) / K) := by
      rw [hfsdef, Nat.mul_comm]
    omega
  have hpadlen : padded.length = fs * K := by
    rw [hpaddef, List.length_append, List.length_replicate, ← hndef]
    exact Nat.add_sub_cancel' hnle
  have hDFlen : dataFrags.length = K := by rw [hDFdef]; simp
  have hPFlen : parityFrags.length = M := by rw [hPFdef]; simp
  have hDFget : ∀ i, i < K → dataFrags.getD i [] =
      (padded.drop (i * fs)).take fs := by
    intro i hi
    rw [hDFdef]
    exact getD_map_range _ [] hi
  have hDFfraglen : ∀ i, i < K → (dataFrags.getD i []).length = fs := by
    intro i hi
    rw [hDFget i hi, List.length_take, List.length_drop, hpadlen]
    have h1 : i * fs + fs ≤ fs * K := by
      have h2 : (i + 1) * fs ≤ K * fs :=
        Nat.mul_le_mul_right fs (by omega)
      calc i * fs + fs = (i + 1) * fs := by ring
        _ ≤ K * fs := h2
        _ = fs * K := Nat.mul_comm K fs
    omega
  have happD : ∀ i, i < K → (dataFrags ++ parityFrags).getD i [] =
      dataFrags.getD i [] := by
    intro i hi
    exact List.getD_append _ _ _ _ (by rw [hDFlen]; exact hi)
  have hcolF : ∀ p : Nat, (List.range K).map
      (fun i => ((dataFrags ++ parityFrags).getD i []).getD p 0) =
      (List.range K).map (fun i => (dataFrags.getD i []).getD p 0) := by
    intro p
    apply List.map_congr_left
    intro i hi
    rw [happD i (List.mem_range.1 hi)]
  have hcollen : ∀ p : Nat, ((List.range K).map
      (fun i => (dataFrags.getD i []).getD p 0)).length = K := by
    intro p; simp
  have htot : c.total_shards = K + M := rfl
  have hPFfraglen : ∀ j, K ≤ j → j < K + M →
      ((dataFrags ++ parityFrags).getD j []).length = fs := by
    intro j h1 h2
    rw [List.getD_append_right _ _ _ _ (by rw [hDFlen]; exact h1), hDFlen,
      hPFdef, getD_map_range _ [] (show j - K < M by omega)]
    simp
  have hgetF : ∀ j, j < K + M → ∀ p, p < fs →
      ((dataFrags ++ parityFrags).getD j []).getD p 0 =
      (c.enc ((List.range K).map
        (fun i => ((dataFrags ++ parityFrags).getD i []).getD p 0))).getD
        j 0 := by
    intro j hj p hp
    rw [hcolF p]
    by_cases hjK : j < K
    · rw [happD j hjK]
      have hsp := hsys ((List.range K).map
        (fun i => (dataFrags.getD i []).getD p 0)) (hcollen p)
      have hcolget : ((List.range K).map
          (fun i => (dataFrags.getD i []).getD p 0)).getD j 0 =
          (dataFrags.getD j []).getD p 0 := getD_map_range _ 0 hjK
      rw [← hcolget]
      conv_lhs => rw [← hsp.2]
      exact getD_take_of_lt _ K j 0 hjK
    · push_neg at hjK
      rw [List.getD_append_right _ _ _ _ (by rw [hDFlen]; exact hjK),
        hDFlen, hPFdef, getD_map_range _ [] (show j - K < M by omega),
        getD_map_range _ 0 hp]
      have hKj : K + (j - K) = j := by omega
      rw [hKj]
  refine ⟨hfs1, hnle, ?_, ?_, ?_, ?_⟩
  · rw [List.length_append, hDFlen, hPFlen, htot]
  · intro j hj
    rw [htot] at hj
    by_cases hjK : j < K
    · rw [happD j hjK]
      exact hDFfraglen j hjK
    · exact hPFfraglen j (by omega) hj
  · intro j hj p hp
    rw [htot] at hj
    exact hgetF j hj p hp
  · have hmc : (List.range K).map
        (fun i => (dataFrags ++ parityFrags).getD i []) =
        (List.range K).map (fun i => dataFrags.getD i []) := by
      apply List.map_congr_left
      intro i hi
      exact happD i (List.mem_range.1 hi)
    rw [hmc]
    have hid : (List.range K).map (fun i => dataFrags.getD i []) =
        dataFrags := by
      apply List.ext_getElem
      · simp [hDFlen]
      · intro i h1 h2
        simp only [List.getElem_map, List.getElem_range]
        rw [List.getD_eq_getElem]
    rw [hid, hDFdef]
    exact flatten_chunks K padded fs (by rw [hpadlen, Nat.mul_comm])

/-- Behaviour of `decode_fragments` on any `data_shards`-or-larger
selection of the fragments of a well-formed fragment list: it returns the
concatenation of the data fragments (reconstructing the missing ones via
the codec). -/
theorem decode_fragments_spec {α : Type} [Zero α] (c : ErasureCoder α)
    (hK : 0 < c.data_shards) (hsys : c.SystematicEnc)
    (hrec : c.RecoversErasures)
    (frags : List (List α)) (fs : Nat) (_hfs : 0 < fs)
    (hflen : ∀ j, j < c.total_shards → (frags.getD j []).length = fs)
    (hcol : ∀ j, j < c.total_shards → ∀ p, p < fs →
      (frags.getD j []).getD p 0 =
        (c.enc ((List.range c.data_shards).map
          (fun i => (frags.getD i []).getD p 0))).getD j 0)
    (sel : List Nat) (hnd : sel.Nodup)
    (hlt : ∀ i ∈ sel, i < c.total_shards)
    (hlen : c.data_shards ≤ sel.length) :
    decode_fragments c (sel.map (fun i => some (frags.getD i []))) sel =
      Except.ok (((List.range c.data_shards).map
        (fun i => frags.getD i [])).flatten) := by
  have htot : c.total_shards = c.data_shards + c.parity_shards := rfl
  have havail : ((sel.map (fun i => some (frags.getD i []))).filterMap id) =
      sel.map (fun i => frags.getD i []) := by
    rw [List.filterMap_map]
    exact congrFun (List.filterMap_eq_map (fun i => frags.getD i [])) sel
  have hfragsz : ((sel.map (fun i => frags.getD i [])).headD []).length
      = fs := by
    cases sel with
    | nil =>
        rw [List.length_nil] at hlen
        omega
    | cons s0 tl =>
        simp only [List.map_cons, List.headD_cons]
        exact hflen s0 (hlt s0 (List.mem_cons_self s0 tl))
  have hcollen : ∀ p : Nat, ((List.range c.data_shards).map
      (fun i => (frags.getD i []).getD p 0)).length = c.data_shards := by
    intro p; simp
  simp only [decode_fragments]
  rw [havail, hfragsz]
  have hnotlt : ¬ ((sel.map (fun i => frags.getD i [])).length
      < c.data_shards) := by
    rw [List.length_map]
    omega
  rw [if_neg hnotlt]
  simp only [fragMapOf_eq (fun i => frags.getD i []) sel hnd]
  have hreco : ∀ p, p < fs → ∀ dIdx, dIdx < c.data_shards →
      (c.dec
        ((List.range c.total_shards).map (fun fragIdx =>
          ((if fragIdx ∈ sel then some (frags.getD fragIdx [])
            else none).getD []).getD p 0))
        ((List.range c.total_shards).filter (fun fragIdx =>
          (if fragIdx ∈ sel then some (frags.getD fragIdx [])
            else none).isNone))).getD dIdx 0
      = (frags.getD dIdx []).getD p 0 := by
    intro p hp dIdx hdK
    have hEeq : (List.range c.total_shards).filter (fun fragIdx =>
        (if fragIdx ∈ sel then some (frags.getD fragIdx [])
          else none).isNone) =
        (List.range c.total_shards).filter
          (fun j => decide (j ∉ sel)) := by
      apply List.filter_congr
      intro j _
      by_cases hj : j ∈ sel
      · simp [hj]
      · simp [hj]
    have hEnodup : ((List.range c.total_shards).filter
        (fun j => decide (j ∉ sel))).Nodup :=
      (List.nodup_range c.total_shards).filter _
    have hEbound : ∀ j ∈ (List.range c.total_shards).filter
        (fun j => decide (j ∉ sel)),
        j < c.data_shards + c.parity_shards := by
      intro j hj
      rw [← htot]
      exact List.mem_range.1 (List.mem_of_mem_filter hj)
    have hEcard := length_filter_not_mem c.total_shards sel hnd hlt
    have hElen : ((List.range c.total_shards).filter
        (fun j => decide (j ∉ sel))).length ≤ c.parity_shards := by
      omega
    have hsp := hsys ((List.range c.data_shards).map
      (fun i => (frags.getD i []).getD p 0)) (hcollen p)
    have hAB : (List.range c.total_shards).map (fun fragIdx =>
        ((if fragIdx ∈ sel then some (frags.getD fragIdx [])
          else none).getD []).getD p 0) =
        eraseWord (c.enc ((List.range c.data_shards).map
          (fun i => (frags.getD i []).getD p 0)))
          ((List.range c.total_shards).filter
            (fun j => decide (j ∉ sel))) := by
      rw [eraseWord, hsp.1, ← htot]
      apply List.map_congr_left
      intro j hj
      have hjtot : j < c.total_shards := List.mem_range.1 hj
      by_cases hjsel : j ∈ sel
      · rw [if_pos hjsel, if_neg (by simp [List.mem_filter, hjsel])]
        simp only [Option.getD_some]
        exact hcol j hjtot p hp
      · rw [if_neg hjsel, if_pos (by simp [List.mem_filter,
          List.mem_range, hjtot, hjsel])]
        simp
    rw [hEeq, hAB, hrec ((List.range c.data_shards).map
      (fun i => (frags.getD i []).getD p 0)) (hcollen p) _ hEnodup
      hEbound hElen]
    exact getD_map_range _ 0 hdK
  by_cases hall : ∀ i : Nat, i < c.data_shards → i ∈ sel
  · have hcondA : ((List.range c.data_shards).all (fun i =>
        (if i ∈ sel then some (frags.getD i []) else none).isSome))
        = true := by
      rw [List.all_eq_true]
      intro i hi
      rw [if_pos (hall i (List.mem_range.1 hi))]
      rfl
    rw [if_pos hcondA]
    congr 1
    apply congrArg List.flatten
    apply List.map_congr_left
    intro i hi
    rw [if_pos (hall i (List.mem_range.1 hi))]
    rfl
  · have hcondB : ¬ (((List.range c.data_shards).all (fun i =>
        (if i ∈ sel then some (frags.getD i []) else none).isSome))
        = true) := by
      push_neg at hall
      obtain ⟨i0, hi0K, hi0n⟩ := hall
      rw [List.all_eq_true]
      intro htrue
      have h1 := htrue i0 (List.mem_range.2 hi0K)
      rw [if_neg hi0n] at h1
      simp at h1
    rw [if_neg hcondB]
    congr 1
    apply congrArg List.flatten
    apply List.map_congr_left
    intro dIdx hdIdx
    have hdK : dIdx < c.data_shards := List.mem_range.1 hdIdx
    by_cases hmem : dIdx ∈ sel
    · rw [if_pos hmem]
      rfl
    · rw [if_neg hmem, Option.getD_none]
      have hpt : ∀ p ∈ List.range fs,
          (c.dec
            ((List.range c.total_shards).map (fun fragIdx =>
              ((if fragIdx ∈ sel then some (frags.getD fragIdx [])
                else none).getD []).getD p 0))
            ((List.range c.total_shards).filter (fun fragIdx =>
              (if fragIdx ∈ sel then some (frags.getD fragIdx [])
                else none).isNone))).getD dIdx 0
          = (frags.getD dIdx []).getD p 0 := by
        intro p hp
        exact hreco p (List.mem_range.1 hp) dIdx hdK
      rw [List.map_congr_left hpt]
      have hlend : (frags.getD dIdx []).length = fs :=
        hflen dIdx (by rw [htot]; omega)
      rw [← hlend]
      exact map_getD_self 0 (frags.getD dIdx [])

/-- Decode-of-encode, before any truncation: for any `data_shards`-or-larger
duplicate-free selection of the fragments produced by `encode_chunk`,
`decode_fragments` returns the zero-padded chunk (the chunk extended to the
next multiple of `data_shards`). -/
theorem decode_encode_eq_padded {α : Type} [Zero α] (c : ErasureCoder α)
    (hK : 0 < c.data_shards) (hsys : c.SystematicEnc)
    (hrec : c.RecoversErasures)
    (chunk : List α) (hne : chunk ≠ [])
    (frags : List (List α)) (henc : encode_chunk c chunk = some frags)
    (sel : List Nat) (hnd : sel.Nodup)
    (hlt : ∀ i ∈ sel, i < c.total_shards)
    (hlen : c.data_shards ≤ sel.length) :
    decode_fragments c (sel.map (fun i => some (frags.getD i []))) sel =
      Except.ok (chunk ++ List.replicate
        (((chunk.length + c.data_shards - 1) / c.data_shards) *
          c.data_shards - chunk.length) 0) := by
  obtain ⟨hfs1, hnle, hcnt, hflen, hcol, hflat⟩ :=
    encode_chunk_spec c hK hsys chunk hne frags henc
  rw [decode_fragments_spec c hK hsys hrec frags _ hfs1 hflen hcol
    sel hnd hlt hlen, hflat]

/-- C1: erasure round-trip.  For every non-empty chunk encoded by
`encode_chunk` into `data_shards + parity_shards` fragments and every
duplicate-free selection of at least `data_shards` fragment indices
(paired with their fragments), decoding the selection and truncating the
result to the original chunk length yields exactly the original chunk. -/
theorem erasure_roundtrip {α : Type} [Zero α] (c : ErasureCoder α)
    (hK : 0 < c.data_shards) (hsys : c.SystematicEnc)
    (hrec : c.RecoversErasures)
    (chunk : List α) (hne : chunk ≠ [])
    (frags : List (List α)) (henc : encode_chunk c chunk = some frags)
    (sel : List Nat) (hnd : sel.Nodup)
    (hlt : ∀ i ∈ sel, i < c.total_shards)
    (hlen : c.data_shards ≤ sel.length) :
    (decode_fragments c (sel.map (fun i => some (frags.getD i []))) sel).map
      (fun r => r.take chunk.length) = Except.ok chunk := by
  rw [decode_encode_eq_padded c hK hsys hrec chunk hne frags henc
    sel hnd hlt hlen]
  exact congrArg Except.ok (List.take_left' rfl)

/-! ### A concrete witness codec: the (5, 3) Reed-Solomon code over `ZMod 5`

Evaluation points 0..4, message = polynomial coefficients of degree < 3;
decoding by Lagrange interpolation through three surviving positions. -/

def inv5 (x : ZMod 5) : ZMod 5 := if x = 2 then 3 else if x = 3 then 2 else x

def enc5 : List (ZMod 5) → List (ZMod 5)
  | [a, b, c] => [a, b, c, a + 2*b + 3*c, 3*a + 2*b + c]
  | _ => []

def dec5 (w : List (ZMod 5)) (E : List Nat) : List (ZMod 5) :=
  let present := (List.range 5).filter (fun j => decide (j ∉ E))
  match present with
  | i :: j :: k :: _ =>
      let xi : ZMod 5 := (i : Nat)
      let xj : ZMod 5 := (j : Nat)
      let xk : ZMod 5 := (k : Nat)
      let wi := w.getD i 0
      let wj := w.getD j 0
      let wk := w.getD k 0
      let p : ZMod 5 → ZMod 5 := fun x =>
        wi * (x - xj) * (x - xk) * inv5 ((xi - xj) * (xi - xk)) +
        wj * (x - xi) * (x - xk) * inv5 ((xj - xi) * (xj - xk)) +
        wk * (x - xi) * (x - xj) * inv5 ((xk - xi) * (xk - xj))
      [p 0, p 1, p 2]
  | _ => []

def code5 : ErasureCoder (ZMod 5) :=
  { data_shards := 3, parity_shards := 2, enc := enc5, dec := dec5 }

theorem code5_systematic : code5.SystematicEnc := by
  intro msg hmsg
  obtain ⟨a, b, c, rfl⟩ := List.length_eq_three.1 hmsg
  exact ⟨rfl, rfl⟩

theorem code5_rec0 : ∀ a b c : ZMod 5,
    dec5 (eraseWord (enc5 [a, b, c]) []) [] = [a, b, c] := by decide

theorem code5_rec1 : ∀ x, x < 5 → ∀ a b c : ZMod 5,
    dec5 (eraseWord (enc5 [a, b, c]) [x]) [x] = [a, b, c] := by decide

set_option maxHeartbeats 1000000 in
theorem code5_rec2 : ∀ x, x < 5 → ∀ y, y < 5 → x ≠ y →
    ∀ a b c : ZMod 5,
    dec5 (eraseWord (enc5 [a, b, c]) [x, y]) [x, y] = [a, b, c] := by decide

theorem code5_recovers : code5.RecoversErasures := by
  intro msg hmsg E hEnd hEbound hElen
  obtain ⟨a, b, c, rfl⟩ := List.length_eq_three.1 hmsg
  rcases E with _ | ⟨x, _ | ⟨y, _ | ⟨z, tl⟩⟩⟩
  · exact code5_rec0 a b c
  · exact code5_rec1 x (hEbound x (List.mem_cons_self x [])) a b c
  · have hx5 : x < 5 := hEbound x (by simp)
    have hy5 : y < 5 := hEbound y (by simp)
    have hxy : x ≠ y := by
      rcases List.nodup_cons.1 hEnd with ⟨hx, h⟩
      intro he
      exact hx (by simp [he])
    exact code5_rec2 x hx5 y hy5 hxy a b c
  · exfalso
    simp only [List.length_cons] at hElen
    have h2 : code5.parity_shards = 2 := rfl
    omega

theorem erasure_roundtrip_witness :
    (decode_fragments code5 ([0, 2, 4].map (fun i =>
        some (([[1, 2], [3, 4], [0, 0], [2, 0], [4, 4]] :
          List (List (ZMod 5))).getD i []))) [0, 2, 4]).map
      (fun r => r.take ([(1 : ZMod 5), 2, 3, 4] : List (ZMod 5)).length) =
      Except.ok [(1 : ZMod 5), 2, 3, 4] :=
  erasure_roundtrip code5 (by decide) code5_systematic code5_recovers
    [(1 : ZMod 5), 2, 3, 4] (by decide)
    [[1, 2], [3, 4], [0, 0], [2, 0], [4, 4]] (by decide)
    [0, 2, 4] (by decide) (by decide) (by decide)

/-- C3 counterexample: `decode_fragments` itself does not truncate to the
original length — it is not even given that length.  A 4-symbol chunk with
`data_shards = 3` encodes into fragments of size 2; decoding from the
three data fragments returns the 6-symbol zero-padded chunk, not the
4-symbol original. -/
theorem decode_no_truncation_counterexample :
    encode_chunk code5 [(1 : ZMod 5), 2, 3, 4] =
      some [[1, 2], [3, 4], [0, 0], [2, 0], [4, 4]] ∧
    decode_fragments code5
        ([0, 1, 2].map (fun i =>
          some (([[1, 2], [3, 4], [0, 0], [2, 0], [4, 4]] :
            List (List (ZMod 5))).getD i []))) [0, 1, 2] =
      Except.ok [1, 2, 3, 4, 0, 0] ∧
    ¬ decode_fragments code5
        ([0, 1, 2].map (fun i =>
          some (([[1, 2], [3, 4], [0, 0], [2, 0], [4, 4]] :
            List (List (ZMod 5))).getD i []))) [0, 1, 2] =
      Except.ok [1, 2, 3, 4] :=
  ⟨by decide, rfl, fun h =>
    absurd (congrArg List.length (Except.ok.inj h)) (by decide)⟩

/-- C3 (amended): `decode_fragments` returns the concatenation of present
and reconstructed data fragments with no truncation: its output is the
chunk zero-padded to the next multiple of `data_shards`, whose length is
that multiple (and equals the original length only when `data_shards`
divides it).  Truncation to the original length is left to the caller. -/
theorem decode_returns_padded {α : Type} [Zero α] (c : ErasureCoder α)
    (hK : 0 < c.data_shards) (hsys : c.SystematicEnc)
    (hrec : c.RecoversErasures)
    (chunk : List α) (hne : chunk ≠ [])
    (frags : List (List α)) (henc : encode_chunk c chunk = some frags)
    (sel : List Nat) (hnd : sel.Nodup)
    (hlt : ∀ i ∈ sel, i < c.total_shards)
    (hlen : c.data_shards ≤ sel.length) :
    ∃ out, decode_fragments c (sel.map (fun i => some (frags.getD i [])))
        sel = Except.ok out ∧
      out = chunk ++ List.replicate
        (((chunk.length + c.data_shards - 1) / c.data_shards) *
          c.data_shards - chunk.length) 0 ∧
      out.length =
        ((chunk.length + c.data_shards - 1) / c.data_shards) *
          c.data_shards := by
  refine ⟨_, decode_encode_eq_padded c hK hsys hrec chunk hne frags henc
    sel hnd hlt hlen, rfl, ?_⟩
  obtain ⟨hfs1, hnle, hrest⟩ :=
    encode_chunk_spec c hK hsys chunk hne frags henc
  rw [List.length_append, List.length_replicate]
  exact Nat.add_sub_cancel' hnle

theorem decode_returns_padded_witness :
    ∃ out, decode_fragments code5 ([0, 2, 4].map (fun i =>
        some (([[1, 2], [3, 4], [0, 0], [2, 0], [4, 4]] :
          List (List (ZMod 5))).getD i []))) [0, 2, 4] = Except.ok out ∧
      out = [(1 : ZMod 5), 2, 3, 4] ++ List.replicate
        ((([(1 : ZMod 5), 2, 3, 4].length + code5.data_shards - 1) /
            code5.data_shards) * code5.data_shards -
          [(1 : ZMod 5), 2, 3, 4].length) 0 ∧
      out.length = (([(1 : ZMod 5), 2, 3, 4].length + code5.data_shards
          - 1) / code5.data_shards) * code5.data_shards :=
  decode_returns_padded code5 (by decide) code5_systematic code5_recovers
    [(1 : ZMod 5), 2, 3, 4] (by decide)
    [[1, 2], [3, 4], [0, 0], [2, 0], [4, 4]] (by decide)
    [0, 2, 4] (by decide) (by decide) (by decide)

end VStack
